import Mathlib

/-! One step of value-function iteration (`CPP/vfStep.cpp`).

A shallow embedding of `vfStep`, the Bellman update of a discretised
stochastic growth model, together with theorems about it.

Modelling conventions.

* `REAL` (a `float`/`double` typedef of `global.h`) is an arbitrary linearly
  ordered field `R`; rounding is not modelled.  The C library `pow` is a field
  of `Extern`, so nothing is assumed about it beyond being a function.
* Eigen vectors and matrices are coefficient functions on `int` indices
  (`Int`); their dimensions are `param.nk` and `param.nz`.  The temporary
  `Exp`, whose length is computed at run time, is a `List R`.
* `klo`, `khi`, `nksub` and the entries of `G` are C `int`s, modelled by `Int`
  (no overflow can occur for indices of an in-memory grid).
* `binaryVal`, `gridMax` and `binaryMax` are declared in `global.h` and
  defined elsewhere; they are fields of `Extern`.  The two maximisers have
  `REAL& V, int& G` output parameters: a call is modelled by the pair of
  values it stores there.
-/

namespace VFI

/-! ## Data model -/

/-- Coefficients of an Eigen `VectorXR`, indexed by C `int`. -/
abbrev VectorXR (R : Type) := Int → R

/-- Coefficients of an Eigen `MatrixXR`, indexed by row and column. -/
abbrev MatrixXR (R : Type) := Int → Int → R

/-- Coefficients of an Eigen `MatrixXi` (the policy matrix `G`). -/
abbrev MatrixXi := Int → Int → Int

/-- The members of class `parameters` that `vfStep` reads (lines 63-69). -/
structure parameters (R : Type) where
  nk : Int
  nz : Int
  eta : R
  beta : R
  alpha : R
  delta : R
  maxtype : Char

/-- The result a maximiser call stores in its output parameters `V` and `G`. -/
abbrev MaxResult (R : Type) := R × Int

/-- Signature of `gridMax` and `binaryMax`:
`(klo, nksub, ydepK, eta, beta, K, Exp, V&, G&)`. -/
abbrev Maximizer (R : Type) :=
  Int → Int → R → R → R → VectorXR R → List R → MaxResult R

/-- Routines `vfStep` calls but does not define: `pow` of `math.h`, and
`binaryVal`, `gridMax`, `binaryMax` of `global.h`. -/
structure Extern (R : Type) where
  pow : R → R → R
  binaryVal : R → VectorXR R → Int
  gridMax : Maximizer R
  binaryMax : Maximizer R

section Embedding

variable {R : Type} [LinearOrderedField R]

/-- Assignment `M(i,j) = x` to one coefficient of a matrix. -/
def setCoeff {α : Type} (M : Int → Int → α) (i j : Int) (x : α) : Int → Int → α :=
  fun a b => if a = i ∧ b = j then x else M a b

/-- The product of a column vector by a transposed vector:
`a.matrix() * b.transpose()`. -/
def outer (a b : VectorXR R) : MatrixXR R := fun i j => a i * b j

/-- The update `M.colwise() += v`. -/
def colwiseAdd (M : MatrixXR R) (v : VectorXR R) : MatrixXR R :=
  fun i j => M i j + v i

/-- Lines 72-73: `ydepK = (K.array().pow(alpha)).matrix()*Z.transpose();`
`ydepK.colwise() += (1-delta)*K;`. -/
def ydepK (E : Extern R) (param : parameters R) (K Z : VectorXR R) : MatrixXR R :=
  colwiseAdd (outer (fun i => E.pow (K i) param.alpha) Z)
    (fun i => (1 - param.delta) * K i)

/-- The product of a row `a` (of `nz` coefficients) by the transposed row `b`:
the accumulation `sum_l a(l)*b(l)`. -/
def rowDot (nz : Int) (a b : VectorXR R) : R :=
  (List.range nz.toNat).foldl (fun acc (l : Nat) => acc + a (l : Int) * b (l : Int)) 0

/-- Line 101: `V0.block(klo, 0, nksub, nz) * P.row(j).transpose()`, a vector
with one coefficient per row of the block. -/
def blockTimesRow (nz : Int) (V0 P : MatrixXR R) (klo nksub j : Int) : List R :=
  (List.range nksub.toNat).map (fun (m : Nat) => rowDot nz (V0 (klo + (m : Int))) (P j))

/-- Lines 86-87: `khi = binaryVal(ydepK(i,j), K); if(K[khi] > ydepK(i,j)) khi -= 1;`
for the resource level `r = ydepK(i,j)`. -/
def feasibleHi (E : Extern R) (K : VectorXR R) (r : R) : Int :=
  let khi := E.binaryVal r K
  if K khi > r then khi - 1 else khi

/-- Lines 85, 90-92: `klo = 0; if(i > 0){ if(G(i-1,j) > klo & G(i-1,j) < khi)
klo = G(i-1,j); }`. -/
def monotoneLo (G : MatrixXi) (i j khi : Int) : Int :=
  let klo : Int := 0
  if i > 0 then
    if G (i - 1) j > klo ∧ G (i - 1) j < khi then G (i - 1) j else klo
  else klo

/-- Lines 82-114, the body of the two loops at cell `(i,j)`, acting on the
pair `(V, G)`. -/
def vfCell (E : Extern R) (param : parameters R) (howard : Bool)
    (K Z : VectorXR R) (P V0 : MatrixXR R) (i j : Int)
    (st : MatrixXR R × MatrixXi) : MatrixXR R × MatrixXi :=
  let y := ydepK E param K Z
  let V := st.1
  let G := st.2
  if howard = false then
    let khi := feasibleHi E K (y i j)
    let klo := monotoneLo G i j khi
    let nksub := khi - klo + 1
    let Exp := blockTimesRow param.nz V0 P klo nksub j
    if param.maxtype = 'g' then
      let r := E.gridMax klo nksub (y i j) param.eta param.beta K Exp
      (setCoeff V i j r.1, setCoeff G i j r.2)
    else if param.maxtype = 'b' then
      let r := E.binaryMax klo nksub (y i j) param.eta param.beta K Exp
      (setCoeff V i j r.1, setCoeff G i j r.2)
    else (V, G)
  else
    let Exp := rowDot param.nz (V0 (G i j)) (P j)
    (setCoeff V i j
      (E.pow (y i j - K (G i j)) (1 - param.eta) / (1 - param.eta) + param.beta * Exp), G)

/-- Lines 79-115: the inner loop `for(int j = 0 ; j < nz ; ++j)` of row `i`. -/
def vfRow (E : Extern R) (param : parameters R) (howard : Bool)
    (K Z : VectorXR R) (P V0 : MatrixXR R) (i : Int)
    (st : MatrixXR R × MatrixXi) : MatrixXR R × MatrixXi :=
  (List.range param.nz.toNat).foldl
    (fun s (j : Nat) => vfCell E param howard K Z P V0 i (j : Int) s) st

/-- The function `vfStep` (lines 57-117): the outer loop
`for(int i = 0 ; i < nk ; ++i)`.  The result is the final content of the
output matrix `V` and of the in/out matrix `G`. -/
def vfStep (E : Extern R) (param : parameters R) (howard : Bool)
    (K Z : VectorXR R) (P V0 : MatrixXR R) (V : MatrixXR R) (G : MatrixXi) :
    MatrixXR R × MatrixXi :=
  (List.range param.nk.toNat).foldl
    (fun s (i : Nat) => vfRow E param howard K Z P V0 (i : Int) s) (V, G)

/-- The pair `(V(i,j), G(i,j))` right after the loop body ran at cell `(i,j)`
on matrices `V`, `G`. -/
def cellVal (E : Extern R) (param : parameters R) (howard : Bool)
    (K Z : VectorXR R) (P V0 : MatrixXR R) (V : MatrixXR R) (G : MatrixXi)
    (i j : Int) : R × Int :=
  let s := vfCell E param howard K Z P V0 i j (V, G)
  (s.1 i j, s.2 i j)

/-- The policy seen by row `a` of a sweep: rows before `a` hold what the
sweep wrote (`Gfin`), the others what entered the call (`G`). -/
def policySeen (a : Int) (G Gfin : MatrixXi) : MatrixXi :=
  fun x y => if x < a then Gfin x y else G x y

/-- The maximiser chosen by `maxtype` when it is one of the two recognised
selectors (lines 104-108). -/
def selectedMax (E : Extern R) (param : parameters R) : Maximizer R :=
  if param.maxtype = 'g' then E.gridMax else E.binaryMax

/-- The maximiser call of lines 85-108 at cell `(i,j)`, for a policy matrix
`G` (only `G(i-1,j)` is read), and the pair it returns. -/
def maxCall (E : Extern R) (param : parameters R) (K Z : VectorXR R) (P V0 : MatrixXR R)
    (G : MatrixXi) (i j : Int) : MaxResult R :=
  let y := ydepK E param K Z i j
  let khi := feasibleHi E K y
  let klo := monotoneLo G i j khi
  let nksub := khi - klo + 1
  selectedMax E param klo nksub y param.eta param.beta K
    (blockTimesRow param.nz V0 P klo nksub j)

/-- The cells in the order the two loops of lines 78-79 visit them: row by
row, and by increasing column inside a row. -/
def sweepCells (param : parameters R) : List (Nat × Nat) :=
  List.product (List.range param.nk.toNat) (List.range param.nz.toNat)

/-! ## Contracts of the inputs and of the external routines -/

/-- The capital grid is strictly increasing on its `nk` indices. -/
def StrictIncr (nk : Int) (K : VectorXR R) : Prop :=
  ∀ a b : Int, 0 ≤ a → a < b → b < nk → K a < K b

/-- Index `h` is the largest index of the grid with `K[h] ≤ r`. -/
def LargestBelow (nk : Int) (K : VectorXR R) (r : R) (h : Int) : Prop :=
  0 ≤ h ∧ h < nk ∧ K h ≤ r ∧ ∀ m : Int, 0 ≤ m → m < nk → K m ≤ r → m ≤ h

/-- Index `b` is the smallest index of the grid with `K[b] > r`. -/
def SmallestAbove (nk : Int) (K : VectorXR R) (r : R) (b : Int) : Prop :=
  0 ≤ b ∧ b < nk ∧ r < K b ∧ ∀ m : Int, 0 ≤ m → m < nk → r < K m → b ≤ m

/-- What is assumed of `binaryVal(r, K)`: its result is the largest index not
above `r` or the smallest index above `r`. -/
def BinaryValSpec (nk : Int) (K : VectorXR R) (r : R) (b : Int) : Prop :=
  LargestBelow nk K r b ∨ SmallestAbove nk K r b

/-- A maximiser answers inside the range `[klo, klo+nksub-1]` it is given,
on every call with a non-empty range and one continuation value per
candidate. -/
def InRange (M : Maximizer R) : Prop :=
  ∀ (klo nksub : Int) (y eta beta : R) (K : VectorXR R) (Exp : List R),
    0 < nksub → (Exp.length : Int) = nksub →
      klo ≤ (M klo nksub y eta beta K Exp).2 ∧ (M klo nksub y eta beta K Exp).2 < klo + nksub

/-- The one-period return of candidate `k` in a maximiser call:
`u(ydepK - K[k]) + beta * Exp[k - klo]` with `u(c) = c^(1-eta)/(1-eta)`. -/
def bellmanReturn (pow : R → R → R) (klo : Int) (y eta beta : R) (K : VectorXR R)
    (Exp : List R) (k : Int) : R :=
  pow (y - K k) (1 - eta) / (1 - eta) + beta * Exp.getD (k - klo).toNat 0

/-- A maximiser stores, with its chosen index `k` of the range, the value
`u(ydepK - K[k]) + beta * Exp[k - klo]`. -/
def ReturnsValueAt (pow : R → R → R) (M : Maximizer R) : Prop :=
  ∀ (klo nksub : Int) (y eta beta : R) (K : VectorXR R) (Exp : List R),
    0 < nksub → (Exp.length : Int) = nksub →
      klo ≤ (M klo nksub y eta beta K Exp).2 ∧ (M klo nksub y eta beta K Exp).2 < klo + nksub ∧
      (M klo nksub y eta beta K Exp).1 =
        bellmanReturn pow klo y eta beta K Exp (M klo nksub y eta beta K Exp).2

/-- A maximiser returns the lowest index of its range at which the one-period
return is largest, and that largest return. -/
def LowestArgmax (pow : R → R → R) (M : Maximizer R) : Prop :=
  ∀ (klo nksub : Int) (y eta beta : R) (K : VectorXR R) (Exp : List R),
    0 < nksub → (Exp.length : Int) = nksub →
      klo ≤ (M klo nksub y eta beta K Exp).2 ∧ (M klo nksub y eta beta K Exp).2 < klo + nksub ∧
      (M klo nksub y eta beta K Exp).1 =
        bellmanReturn pow klo y eta beta K Exp (M klo nksub y eta beta K Exp).2 ∧
      (∀ k : Int, klo ≤ k → k < klo + nksub →
        bellmanReturn pow klo y eta beta K Exp k ≤ (M klo nksub y eta beta K Exp).1) ∧
      (∀ k : Int, klo ≤ k → k < (M klo nksub y eta beta K Exp).2 →
        bellmanReturn pow klo y eta beta K Exp k < (M klo nksub y eta beta K Exp).1)

/-- The utility of line 113 and of the maximisers: `u(c) = c^(1-eta)/(1-eta)`. -/
def crra (E : Extern R) (param : parameters R) (c : R) : R :=
  E.pow c (1 - param.eta) / (1 - param.eta)

/-- The one-period return of choosing grid index `k` at cell `(i,j)`:
`u(ydepK(i,j) - K[k]) + beta * sum_l V0(k,l)*P(j,l)`. -/
def cellReturn (E : Extern R) (param : parameters R) (K Z : VectorXR R) (P V0 : MatrixXR R)
    (i j k : Int) : R :=
  crra E param (ydepK E param K Z i j - K k) + param.beta * rowDot param.nz (V0 k) (P j)

/-- Index `g` is the lowest index at which the return of cell `(i,j)` is
largest over the whole feasible range `[0, khi]`. -/
def LowestBest (E : Extern R) (param : parameters R) (K Z : VectorXR R) (P V0 : MatrixXR R)
    (i j g : Int) : Prop :=
  0 ≤ g ∧ g ≤ feasibleHi E K (ydepK E param K Z i j) ∧
    (∀ k : Int, 0 ≤ k → k ≤ feasibleHi E K (ydepK E param K Z i j) →
      cellReturn E param K Z P V0 i j k ≤ cellReturn E param K Z P V0 i j g) ∧
    (∀ k : Int, 0 ≤ k → k < g →
      cellReturn E param K Z P V0 i j k < cellReturn E param K Z P V0 i j g)

/-- Resources do not fall as capital rises, in column `j`. -/
def ResourcesIncr (E : Extern R) (param : parameters R) (K Z : VectorXR R) (j : Int) : Prop :=
  ∀ i : Int, 1 ≤ i → i < param.nk → ydepK E param K Z (i - 1) j ≤ ydepK E param K Z i j

/-- Concavity of the utility as seen from the grid, in column `j`: with the
resources of row `i` instead of those of row `i-1`, giving up the grid point
`k` for a lower one `k'` raises utility by no more.  Only grid points `k`
that row `i-1` can afford are compared. -/
def ConcaveOnGrid (E : Extern R) (param : parameters R) (K Z : VectorXR R) (j : Int) : Prop :=
  ∀ i k' k : Int, 1 ≤ i → i < param.nk → 0 ≤ k' → k' < k → k < param.nk →
    K k ≤ ydepK E param K Z (i - 1) j →
    crra E param (ydepK E param K Z i j - K k') - crra E param (ydepK E param K Z i j - K k)
      ≤ crra E param (ydepK E param K Z (i - 1) j - K k')
        - crra E param (ydepK E param K Z (i - 1) j - K k)

/-- Concavity of the utility on non-negative consumption, in the form of
decreasing increments. -/
def ConcaveUtility (E : Extern R) (param : parameters R) : Prop :=
  ∀ c d t : R, 0 ≤ c → c ≤ d → 0 ≤ t →
    crra E param (d + t) - crra E param (c + t) ≤ crra E param d - crra E param c

/-! ## The exhaustive maximiser -/

/-- A forward scan of the coefficients `w 0, ..., w n` that keeps the first
largest one and its position (the visitor of Eigen's `maxCoeff(&index)`). -/
def maxScan (w : Nat → R) : Nat → R × Nat
  | 0 => (w 0, 0)
  | n + 1 =>
    let r := maxScan w n
    if r.1 < w (n + 1) then (w (n + 1), n + 1) else r

/-- Modelled from the spec: `gridMax`, declared in `global.h` and defined in a
file that is not part of `src/`.  Section 4.4: "evaluate the one-period
return `u(ydepK − K[k]) + beta·continuation[k]` for every `k` in the range and
return the maximizing `(value, index)` pair, breaking ties toward the lowest
index". -/
def gridMaxModel (pow : R → R → R) : Maximizer R :=
  fun klo nksub y eta beta K Exp =>
    let w : Nat → R := fun m => bellmanReturn pow klo y eta beta K Exp (klo + (m : Int))
    let r := maxScan w (nksub.toNat - 1)
    (r.1, klo + (r.2 : Int))

end Embedding

/-! ## A worked instance

Three capital levels `K = [1, 4, 9]`, one productivity state `Z = [1]`,
`alpha = 1/2`, `delta = 1/4`, `eta = 2`, `beta = 9/10`, over the rationals.
The resources are `ydepK = [7/4, 5, 39/4]`. -/

/-- Powers needed by the instance: square roots of the grid points for
`alpha = 1/2` and reciprocals for `1 - eta = -1`. -/
def demoPow (x e : ℚ) : ℚ :=
  if e = 1 / 2 then (if x = 4 then 2 else if x = 9 then 3 else x)
  else if e = -1 then x⁻¹
  else x

/-- The capital grid `[1, 4, 9]`. -/
def demoK : VectorXR ℚ := fun i => if i = 0 then 1 else if i = 1 then 4 else 9

/-- The productivity grid `[1]`. -/
def demoZ : VectorXR ℚ := fun _ => 1

/-- The transition matrix `[[1]]`. -/
def demoP : MatrixXR ℚ := fun _ _ => 1

/-- A current value function, `V0(i,0) = i`. -/
def demoV0 : MatrixXR ℚ := fun i _ => (i : ℚ)

/-- A search over a grid of three points that returns the first index whose
grid value exceeds `r`, or the last index. -/
def demoBinaryVal (r : ℚ) (K : VectorXR ℚ) : Int :=
  if r < K 0 then 0 else if r < K 1 then 1 else 2

/-- The external routines of the instance. -/
def demoE : Extern ℚ where
  pow := demoPow
  binaryVal := demoBinaryVal
  gridMax := gridMaxModel demoPow
  binaryMax := gridMaxModel demoPow

/-- The parameters of the instance, with the grid-search selector. -/
def demoParam : parameters ℚ where
  nk := 3
  nz := 1
  eta := 2
  beta := 9 / 10
  alpha := 1 / 2
  delta := 1 / 4
  maxtype := 'g'

/-- Matrices that enter the call: `V = 0` and `G = 0`. -/
def demoV : MatrixXR ℚ := fun _ _ => 0

/-- The policy that enters the call. -/
def demoG : MatrixXi := fun _ _ => 0

/-- The parameters of the instance with a selector that is neither `'g'` nor
`'b'`. -/
def demoParamX : parameters ℚ := { demoParam with maxtype := 'x' }

/-- A productivity grid that leaves every resource level below `K[0]`:
`Z = [0]`, so that `ydepK(i,0) = (3/4) K[i]` and `ydepK(0,0) = 3/4 < 1`. -/
def demoZ0 : VectorXR ℚ := fun _ => 0

/-- Another policy matrix, with entries that are not grid indices. -/
def demoG7 : MatrixXi := fun _ _ => 7

/-- The capital grid is non-decreasing on its `nk` indices. -/
def NonDecr {R : Type} [LinearOrderedField R] (nk : Int) (K : VectorXR R) : Prop :=
  ∀ a b : Int, 0 ≤ a → a ≤ b → b < nk → K a ≤ K b

/-- A productivity grid for which rows 1 and 2 have the same feasibility
bound: `Z = [1/2]` gives `ydepK = [5/4, 4, 33/4]` and `khi = [0, 1, 1]`. -/
def demoZhalf : VectorXR ℚ := fun _ => 1 / 2

/-- A routine that answers inside its range without maximising: the top of
the range when `ydepK < 5`, the bottom otherwise. -/
def pickMax : Maximizer ℚ :=
  fun klo nksub y _ _ _ _ => if y < 5 then (0, klo + nksub - 1) else (0, klo)

/-- The external routines of the instance with `pickMax` as both maximisers. -/
def demoEpick : Extern ℚ := { demoE with gridMax := pickMax, binaryMax := pickMax }

/-- A policy matrix with `1` everywhere. -/
def demoG1 : MatrixXi := fun _ _ => 1

/-! ## The scenario of the spec

`nk = 3`, `K = [1, 2, 3]`, `nz = 1`, `Z = [1]`, `alpha = 0.3`, `delta = 1`,
`eta = 2`, `beta = 0.9`, `P = [[1]]`. -/

/-- The capital grid `[1, 2, 3]` of the scenario. -/
def scenK {R : Type} [LinearOrderedField R] : VectorXR R :=
  fun i => if i = 0 then 1 else if i = 1 then 2 else 3

/-- The productivity grid `[1]` of the scenario. -/
def scenZ {R : Type} [LinearOrderedField R] : VectorXR R := fun _ => 1

/-- The transition matrix `[[1]]` of the scenario. -/
def scenP {R : Type} [LinearOrderedField R] : MatrixXR R := fun _ _ => 1

/-- The parameters of the scenario, for a given selector. -/
def scenParam {R : Type} [LinearOrderedField R] (maxtype : Char) : parameters R where
  nk := 3
  nz := 1
  eta := 2
  beta := 9 / 10
  alpha := 3 / 10
  delta := 1
  maxtype := maxtype

/-- Rational stand-ins for the powers of the scenario: `1^0.3 = 1`,
`2^0.3 ≈ 1.231`, `3^0.3 ≈ 1.390`, and reciprocals for the exponent
`1 - eta = -1`. -/
def scenPow (x e : ℚ) : ℚ :=
  if e = 3 / 10 then (if x = 1 then 1 else if x = 2 then 1231 / 1000 else 139 / 100)
  else x⁻¹

/-- The external routines used to run the scenario on the rationals. -/
def scenE : Extern ℚ where
  pow := scenPow
  binaryVal := demoBinaryVal
  gridMax := gridMaxModel scenPow
  binaryMax := gridMaxModel scenPow

/-- A known current value function for the scenario, `V0 = 10` everywhere. -/
def scenV0 : MatrixXR ℚ := fun _ _ => 10

/-! ## Other visiting orders -/

/-- A visiting order in which, inside every column, rows come in increasing
order. -/
def ColumnOrdered (l : List (Nat × Nat)) : Prop :=
  l.Pairwise (fun c d => c.2 = d.2 → c.1 < d.1)

/-- A visiting order of the grid: every cell of the grid is visited, nothing
else is, and inside every column rows come in increasing order. -/
def AdmissibleOrder {R : Type} (param : parameters R) (l : List (Nat × Nat)) : Prop :=
  ColumnOrdered l ∧ ∀ i j : Nat, (i, j) ∈ l ↔ ((i : Int) < param.nk ∧ (j : Int) < param.nz)

/-- The loop body of `vfStep` run on the cells in the order of the list `l`. -/
def sweepOver {R : Type} [LinearOrderedField R] (E : Extern R) (param : parameters R)
    (howard : Bool) (K Z : VectorXR R) (P V0 : MatrixXR R) (l : List (Nat × Nat))
    (V : MatrixXR R) (G : MatrixXi) : MatrixXR R × MatrixXi :=
  l.foldl (fun s c => vfCell E param howard K Z P V0 (c.1 : Int) (c.2 : Int) s) (V, G)

/-- The loops of `vfStep` interchanged: `for(j...) for(i...)`, with `j` the
outer and `i` the inner index. -/
def vfStepColMajor {R : Type} [LinearOrderedField R] (E : Extern R) (param : parameters R)
    (howard : Bool) (K Z : VectorXR R) (P V0 : MatrixXR R) (V : MatrixXR R) (G : MatrixXi) :
    MatrixXR R × MatrixXi :=
  (List.range param.nz.toNat).foldl
    (fun s (j : Nat) => (List.range param.nk.toNat).foldl
      (fun s (i : Nat) => vfCell E param howard K Z P V0 (i : Int) (j : Int) s) s) (V, G)

/-- The cells in the order of the interchanged loops, as `(i, j)` pairs. -/
def colMajorCells {R : Type} (param : parameters R) : List (Nat × Nat) :=
  (List.product (List.range param.nz.toNat) (List.range param.nk.toNat)).map Prod.swap

/-- The parameters of the worked instance with two productivity states. -/
def demoParam2 : parameters ℚ := { demoParam with nz := 2 }

/-- The productivity grid `[1, 2]`. -/
def demoZ2 : VectorXR ℚ := fun j => if j = 0 then 1 else 2

/-- The transition matrix `[[1/2, 1/2], [1/2, 1/2]]`. -/
def demoP2 : MatrixXR ℚ := fun _ _ => 1 / 2

/-! ## Instances against unconditional monotonicity

Three runs on the grid `K = [1, 4]` with one productivity state `Z = [5]`,
`beta = 9/10`, `delta = 1`, `P = [[1]]`, `V0 = [0, 10]` and the exhaustive
maximiser.  Each of them breaks exactly one of: a utility concave on the
grid, resources that rise with capital, the contract of `binaryVal`. -/

/-- The conditions on the inputs of a maximisation sweep with one
productivity state: the grid-search selector, `K` strictly increasing, every
resource level at least `K[0]`, and `gridMax` returning the lowest-index
maximiser of the return over its range. -/
def GridSearchInputs {R : Type} [LinearOrderedField R] (E : Extern R) (param : parameters R)
    (K Z : VectorXR R) : Prop :=
  param.nz = 1 ∧ param.maxtype = 'g' ∧ StrictIncr param.nk K
    ∧ (∀ i : Int, 0 ≤ i → i < param.nk → K 0 ≤ ydepK E param K Z i 0)
    ∧ LowestArgmax E.pow E.gridMax

/-- The search routine meets its contract at every row of column 0. -/
def BinaryValMeetsSpec {R : Type} [LinearOrderedField R] (E : Extern R) (param : parameters R)
    (K Z : VectorXR R) : Prop :=
  ∀ i : Int, 0 ≤ i → i < param.nk →
    BinaryValSpec param.nk K (ydepK E param K Z i 0) (E.binaryVal (ydepK E param K Z i 0) K)

/-- The capital grid `[1, 4]`. -/
def gridK2 : VectorXR ℚ := fun i => if i = 0 then 1 else 4

/-- The productivity grid `[5]`. -/
def fiveZ : VectorXR ℚ := fun _ => 5

/-- The current value function `V0(i,0) = 10 i`. -/
def steepV0 : MatrixXR ℚ := fun i _ => 10 * (i : ℚ)

/-- A search over a grid of two points that meets the contract: the first
index whose grid value exceeds `r`, or the last index. -/
def binaryVal2 (r : ℚ) (K : VectorXR ℚ) : Int := if r < K 0 then 0 else 1

/-- Powers for a convex utility: square roots of the grid points for
`alpha = 1/2`, squares for `1 - eta = 2`. -/
def convexPow (x e : ℚ) : ℚ := if e = 1 / 2 then (if x = 4 then 2 else x) else x * x

/-- The routines of the convex-utility run. -/
def convexE : Extern ℚ where
  pow := convexPow
  binaryVal := binaryVal2
  gridMax := gridMaxModel convexPow
  binaryMax := gridMaxModel convexPow

/-- The parameters of the convex-utility run: `eta = -1`, so that
`u(c) = c^2/2`, and `alpha = 1/2`; the resources are `ydepK = [5, 10]`. -/
def convexParam : parameters ℚ where
  nk := 2
  nz := 1
  eta := -1
  beta := 9 / 10
  alpha := 1 / 2
  delta := 1
  maxtype := 'g'

/-- Powers for the run with falling resources: reciprocals, for
`alpha = -1` and for `1 - eta = -1`. -/
def fallPow (x e : ℚ) : ℚ := if e = -1 then x⁻¹ else x

/-- The routines of the run with falling resources. -/
def fallE : Extern ℚ where
  pow := fallPow
  binaryVal := binaryVal2
  gridMax := gridMaxModel fallPow
  binaryMax := gridMaxModel fallPow

/-- The parameters of the run with falling resources: `alpha = -1` and
`eta = 2`; the resources are `ydepK = [5, 5/4]`. -/
def fallParam : parameters ℚ where
  nk := 2
  nz := 1
  eta := 2
  beta := 9 / 10
  alpha := -1
  delta := 1
  maxtype := 'g'

/-- A search routine off its contract: index 1 below `r = 6`, index 0 from
there on. -/
def offVal (r : ℚ) (_ : VectorXR ℚ) : Int := if r < 6 then 1 else 0

/-- The routines of the run with the search routine off its contract. -/
def offE : Extern ℚ where
  pow := demoPow
  binaryVal := offVal
  gridMax := gridMaxModel demoPow
  binaryMax := gridMaxModel demoPow

/-- The parameters of that run: `alpha = 1/2`, `eta = 2`; the resources are
`ydepK = [5, 10]`. -/
def offParam : parameters ℚ where
  nk := 2
  nz := 1
  eta := 2
  beta := 9 / 10
  alpha := 1 / 2
  delta := 1
  maxtype := 'g'

/-! ## Structure of the sweep -/

section Sweep

variable {R : Type} [LinearOrderedField R]
variable (E : Extern R) (param : parameters R) (howard : Bool)
variable (K Z : VectorXR R) (P V0 : MatrixXR R)

theorem vfCell_apply (i j : Int) (st : MatrixXR R × MatrixXi) (a b : Int) :
    ((vfCell E param howard K Z P V0 i j st).1 a b,
      (vfCell E param howard K Z P V0 i j st).2 a b) =
      if a = i ∧ b = j then cellVal E param howard K Z P V0 st.1 st.2 i j
      else (st.1 a b, st.2 a b) := by
  by_cases h : a = i ∧ b = j
  · obtain ⟨rfl, rfl⟩ := h
    simp [cellVal]
  · rw [if_neg h]
    unfold vfCell
    simp only []
    split_ifs <;> simp [setCoeff, h]

theorem cellVal_congr (V V' : MatrixXR R) (G G' : MatrixXi) (i j : Int)
    (hV : V i j = V' i j) (hG : G i j = G' i j) (hp : G (i - 1) j = G' (i - 1) j) :
    cellVal E param howard K Z P V0 V G i j = cellVal E param howard K Z P V0 V' G' i j := by
  unfold cellVal vfCell monotoneLo
  simp only [hp, hG]
  split_ifs <;> simp [setCoeff, hV, hG]

theorem vfCell_fold (i : Int) (st : MatrixXR R × MatrixXi) (n : Nat) (a b : Int) :
    (((List.range n).foldl (fun s (j : Nat) => vfCell E param howard K Z P V0 i (j : Int) s) st).1 a b,
      ((List.range n).foldl (fun s (j : Nat) => vfCell E param howard K Z P V0 i (j : Int) s) st).2 a b) =
      if a = i ∧ 0 ≤ b ∧ b < (n : Int) then cellVal E param howard K Z P V0 st.1 st.2 i b
      else (st.1 a b, st.2 a b) := by
  induction n generalizing a b with
  | zero =>
    have : ¬ (a = i ∧ 0 ≤ b ∧ b < ((0 : Nat) : Int)) := by omega
    rw [if_neg this]
    rfl
  | succ n ih =>
    rw [List.range_succ, List.foldl_append]
    simp only [List.foldl_cons, List.foldl_nil]
    rw [vfCell_apply]
    by_cases h : a = i ∧ b = (n : Int)
    · obtain ⟨rfl, rfl⟩ := h
      have hlt : a = a ∧ (0 : Int) ≤ (n : Int) ∧ (n : Int) < ((n + 1 : Nat) : Int) := by omega
      rw [if_pos ⟨rfl, rfl⟩, if_pos hlt]
      have h1 := ih a (n : Int)
      have h2 := ih (a - 1) (n : Int)
      have n1 : ¬ (a = a ∧ (0 : Int) ≤ (n : Int) ∧ (n : Int) < (n : Int)) := by omega
      have n2 : ¬ (a - 1 = a ∧ (0 : Int) ≤ (n : Int) ∧ (n : Int) < (n : Int)) := by omega
      rw [if_neg n1] at h1
      rw [if_neg n2] at h2
      exact cellVal_congr E param howard K Z P V0 _ _ _ _ a (n : Int)
        (congrArg Prod.fst h1) (congrArg Prod.snd h1) (congrArg Prod.snd h2)
    · rw [if_neg h, ih a b]
      by_cases h3 : a = i ∧ 0 ≤ b ∧ b < (n : Int)
      · have h4 : a = i ∧ 0 ≤ b ∧ b < ((n + 1 : Nat) : Int) := by omega
        rw [if_pos h3, if_pos h4]
      · have h4 : ¬ (a = i ∧ 0 ≤ b ∧ b < ((n + 1 : Nat) : Int)) := by omega
        rw [if_neg h3, if_neg h4]

theorem vfRow_apply (i : Int) (st : MatrixXR R × MatrixXi) (a b : Int) :
    ((vfRow E param howard K Z P V0 i st).1 a b, (vfRow E param howard K Z P V0 i st).2 a b) =
      if a = i ∧ 0 ≤ b ∧ b < param.nz then cellVal E param howard K Z P V0 st.1 st.2 i b
      else (st.1 a b, st.2 a b) := by
  unfold vfRow
  rw [vfCell_fold]
  by_cases h : a = i ∧ 0 ≤ b ∧ b < param.nz
  · have h2 : a = i ∧ 0 ≤ b ∧ b < (param.nz.toNat : Int) := by omega
    rw [if_pos h, if_pos h2]
  · have h2 : ¬ (a = i ∧ 0 ≤ b ∧ b < (param.nz.toNat : Int)) := by omega
    rw [if_neg h, if_neg h2]

theorem vfRow_fold (V : MatrixXR R) (G : MatrixXi) (N : Nat) (a b : Int) :
    (((List.range N).foldl (fun s (i : Nat) => vfRow E param howard K Z P V0 (i : Int) s) (V, G)).1 a b,
      ((List.range N).foldl (fun s (i : Nat) => vfRow E param howard K Z P V0 (i : Int) s) (V, G)).2 a b) =
      if 0 ≤ a ∧ a < (N : Int) ∧ 0 ≤ b ∧ b < param.nz then
        cellVal E param howard K Z P V0 V
          (policySeen a G
            ((List.range N).foldl (fun s (i : Nat) => vfRow E param howard K Z P V0 (i : Int) s) (V, G)).2)
          a b
      else (V a b, G a b) := by
  induction N generalizing a b with
  | zero =>
    have : ¬ (0 ≤ a ∧ a < ((0 : Nat) : Int) ∧ 0 ≤ b ∧ b < param.nz) := by omega
    rw [if_neg this]
    rfl
  | succ N ih =>
    rw [List.range_succ, List.foldl_append]
    simp only [List.foldl_cons, List.foldl_nil]
    generalize hs : (List.range N).foldl
      (fun s (i : Nat) => vfRow E param howard K Z P V0 (i : Int) s) (V, G) = s at ih
    have hrow := vfRow_apply E param howard K Z P V0 (N : Int) s
    rw [hrow a b]
    by_cases h : a = (N : Int) ∧ 0 ≤ b ∧ b < param.nz
    · obtain ⟨rfl, hb0, hb1⟩ := h
      have hin : (0 : Int) ≤ (N : Int) ∧ (N : Int) < ((N + 1 : Nat) : Int) ∧ 0 ≤ b ∧ b < param.nz := by
        omega
      rw [if_pos ⟨rfl, hb0, hb1⟩, if_pos hin]
      have h1 := ih (N : Int) b
      have n1 : ¬ ((0 : Int) ≤ (N : Int) ∧ (N : Int) < (N : Int) ∧ 0 ≤ b ∧ b < param.nz) := by omega
      rw [if_neg n1] at h1
      have h2 := hrow ((N : Int) - 1) b
      have n2 : ¬ ((N : Int) - 1 = (N : Int) ∧ 0 ≤ b ∧ b < param.nz) := by omega
      rw [if_neg n2] at h2
      apply cellVal_congr
      · exact congrArg Prod.fst h1
      · simp only [policySeen, lt_irrefl, if_false]
        exact congrArg Prod.snd h1
      · have : (N : Int) - 1 < (N : Int) := by omega
        simp only [policySeen, this, if_true]
        exact (congrArg Prod.snd h2).symm
    · rw [if_neg h, ih a b]
      by_cases h3 : 0 ≤ a ∧ a < (N : Int) ∧ 0 ≤ b ∧ b < param.nz
      · have h4 : 0 ≤ a ∧ a < ((N + 1 : Nat) : Int) ∧ 0 ≤ b ∧ b < param.nz := by omega
        rw [if_pos h3, if_pos h4]
        have h2 := hrow (a - 1) b
        have n2 : ¬ (a - 1 = (N : Int) ∧ 0 ≤ b ∧ b < param.nz) := by omega
        rw [if_neg n2] at h2
        apply cellVal_congr
        · rfl
        · simp only [policySeen, lt_irrefl, if_false]
        · have : a - 1 < a := by omega
          simp only [policySeen, this, if_true]
          exact (congrArg Prod.snd h2).symm
      · have h4 : ¬ (0 ≤ a ∧ a < ((N + 1 : Nat) : Int) ∧ 0 ≤ b ∧ b < param.nz) := by omega
        rw [if_neg h3, if_neg h4]

/-- Every coefficient of the result of `vfStep`: inside the grid it is what
the loop body stored at that cell, computed from the incoming `V` and from a
policy whose earlier rows are those of the final `G`; outside it is
untouched. -/
theorem vfStep_apply (V : MatrixXR R) (G : MatrixXi) (a b : Int) :
    ((vfStep E param howard K Z P V0 V G).1 a b, (vfStep E param howard K Z P V0 V G).2 a b) =
      if 0 ≤ a ∧ a < param.nk ∧ 0 ≤ b ∧ b < param.nz then
        cellVal E param howard K Z P V0 V
          (policySeen a G (vfStep E param howard K Z P V0 V G).2) a b
      else (V a b, G a b) := by
  unfold vfStep
  rw [vfRow_fold]
  by_cases h : 0 ≤ a ∧ a < param.nk ∧ 0 ≤ b ∧ b < param.nz
  · have h2 : 0 ≤ a ∧ a < (param.nk.toNat : Int) ∧ 0 ≤ b ∧ b < param.nz := by omega
    rw [if_pos h, if_pos h2]
  · have h2 : ¬ (0 ≤ a ∧ a < (param.nk.toNat : Int) ∧ 0 ≤ b ∧ b < param.nz) := by omega
    rw [if_neg h, if_neg h2]

theorem cellVal_max (hsel : param.maxtype = 'g' ∨ param.maxtype = 'b')
    (V : MatrixXR R) (G : MatrixXi) (i j : Int) :
    cellVal E param false K Z P V0 V G i j = maxCall E param K Z P V0 G i j := by
  unfold cellVal vfCell maxCall selectedMax
  rcases hsel with h | h
  · simp [h, setCoeff]
  · have hg : param.maxtype ≠ 'g' := by rw [h]; decide
    simp [h, setCoeff]

theorem cellVal_howard (V : MatrixXR R) (G : MatrixXi) (i j : Int) :
    cellVal E param true K Z P V0 V G i j =
      (E.pow (ydepK E param K Z i j - K (G i j)) (1 - param.eta) / (1 - param.eta)
        + param.beta * rowDot param.nz (V0 (G i j)) (P j), G i j) := by
  simp [cellVal, vfCell, setCoeff]

theorem maxCall_congr (G G' : MatrixXi) (i j : Int) (h : G (i - 1) j = G' (i - 1) j) :
    maxCall E param K Z P V0 G i j = maxCall E param K Z P V0 G' i j := by
  unfold maxCall monotoneLo
  simp only [h]

/-- In a maximisation sweep with a recognised selector, the pair left in
cell `(i,j)` is the answer of the maximiser call made there, and that call
reads row `i-1` of the final policy. -/
theorem vfStep_max_apply (hsel : param.maxtype = 'g' ∨ param.maxtype = 'b')
    (V : MatrixXR R) (G : MatrixXi) (i j : Int)
    (hi0 : 0 ≤ i) (hi : i < param.nk) (hj0 : 0 ≤ j) (hj : j < param.nz) :
    ((vfStep E param false K Z P V0 V G).1 i j, (vfStep E param false K Z P V0 V G).2 i j) =
      maxCall E param K Z P V0 (vfStep E param false K Z P V0 V G).2 i j := by
  rw [vfStep_apply, if_pos ⟨hi0, hi, hj0, hj⟩, cellVal_max E param K Z P V0 hsel]
  apply maxCall_congr
  have : i - 1 < i := by omega
  simp [policySeen, this]

theorem length_blockTimesRow (nz : Int) (V0 P : MatrixXR R) (klo nksub j : Int) :
    (blockTimesRow nz V0 P klo nksub j).length = nksub.toNat := by
  simp [blockTimesRow]

theorem feasibleHi_largest (nk : Int) (r : R) (hK : StrictIncr nk K) (hr : K 0 ≤ r)
    (hb : BinaryValSpec nk K r (E.binaryVal r K)) :
    LargestBelow nk K r (feasibleHi E K r) := by
  unfold feasibleHi
  simp only []
  rcases hb with hb | hb
  · have : ¬ K (E.binaryVal r K) > r := not_lt.mpr hb.2.2.1
    rw [if_neg this]
    exact hb
  · obtain ⟨b0, b1, b2, b3⟩ := hb
    rw [if_pos b2]
    have hne : E.binaryVal r K ≠ 0 := by
      intro h0
      rw [h0] at b2
      exact absurd hr (not_le.mpr b2)
    have hpos : 0 ≤ E.binaryVal r K - 1 := by omega
    refine ⟨hpos, by omega, ?_, ?_⟩
    · by_contra hgt
      have := b3 (E.binaryVal r K - 1) hpos (by omega) (not_le.mp hgt)
      omega
    · intro m hm0 hm1 hm
      by_contra hlt
      have hle : E.binaryVal r K ≤ m := by omega
      rcases eq_or_lt_of_le hle with heq | hlt2
      · rw [← heq] at hm
        exact absurd hm (not_le.mpr b2)
      · have := hK _ _ b0 hlt2 hm1
        exact absurd hm (not_le.mpr (lt_trans b2 this))

theorem monotoneLo_bounds (G : MatrixXi) (i j khi : Int) (hkhi : 0 ≤ khi) :
    0 ≤ monotoneLo G i j khi ∧ monotoneLo G i j khi ≤ khi := by
  unfold monotoneLo
  simp only []
  split_ifs with h1 h2 <;> omega

theorem StrictIncr.le_of_le {nk : Int} {K : VectorXR R} (hK : StrictIncr nk K) {a b : Int}
    (ha : 0 ≤ a) (hab : a ≤ b) (hb : b < nk) : K a ≤ K b := by
  rcases eq_or_lt_of_le hab with h | h
  · rw [h]
  · exact le_of_lt (hK a b ha h hb)

/-- The index a maximiser call of the sweep returns lies between the lower
bound `klo` of its range and the feasibility bound `khi`. -/
theorem maxCall_range (hmax : InRange (selectedMax E param)) (G : MatrixXi) (i j : Int)
    (hkhi : 0 ≤ feasibleHi E K (ydepK E param K Z i j)) :
    monotoneLo G i j (feasibleHi E K (ydepK E param K Z i j)) ≤ (maxCall E param K Z P V0 G i j).2
      ∧ (maxCall E param K Z P V0 G i j).2 ≤ feasibleHi E K (ydepK E param K Z i j) := by
  have hb := monotoneLo_bounds G i j _ hkhi
  have hpos : 0 < feasibleHi E K (ydepK E param K Z i j)
      - monotoneLo G i j (feasibleHi E K (ydepK E param K Z i j)) + 1 := by omega
  have hlen : ((blockTimesRow param.nz V0 P
      (monotoneLo G i j (feasibleHi E K (ydepK E param K Z i j)))
      (feasibleHi E K (ydepK E param K Z i j)
        - monotoneLo G i j (feasibleHi E K (ydepK E param K Z i j)) + 1) j).length : Int)
      = feasibleHi E K (ydepK E param K Z i j)
        - monotoneLo G i j (feasibleHi E K (ydepK E param K Z i j)) + 1 := by
    rw [length_blockTimesRow]
    omega
  have hm := hmax (monotoneLo G i j (feasibleHi E K (ydepK E param K Z i j)))
    (feasibleHi E K (ydepK E param K Z i j)
      - monotoneLo G i j (feasibleHi E K (ydepK E param K Z i j)) + 1)
    (ydepK E param K Z i j) param.eta param.beta K _ hpos hlen
  unfold maxCall
  simp only []
  constructor
  · exact hm.1
  · have := hm.2
    omega

theorem maxScan_spec (w : Nat → R) (n : Nat) :
    (maxScan w n).2 ≤ n ∧ (maxScan w n).1 = w (maxScan w n).2 ∧
      (∀ m : Nat, m ≤ n → w m ≤ (maxScan w n).1) ∧
      (∀ m : Nat, m < (maxScan w n).2 → w m < (maxScan w n).1) := by
  induction n with
  | zero =>
    refine ⟨le_refl _, rfl, ?_, ?_⟩
    · intro m hm
      have : m = 0 := by omega
      subst this
      exact le_refl _
    · intro m hm
      exact absurd hm (Nat.not_lt_zero m)
  | succ n ih =>
    obtain ⟨h1, h2, h3, h4⟩ := ih
    by_cases hlt : (maxScan w n).1 < w (n + 1)
    · have hs : maxScan w (n + 1) = (w (n + 1), n + 1) := by
        simp [maxScan, hlt]
      rw [hs]
      refine ⟨le_refl _, rfl, ?_, ?_⟩
      · intro m hm
        rcases Nat.eq_or_lt_of_le hm with heq | hlt2
        · rw [heq]
        · exact le_of_lt (lt_of_le_of_lt (h3 m (by omega)) hlt)
      · intro m hm
        exact lt_of_le_of_lt (h3 m (by simpa using Nat.lt_succ_iff.mp hm)) hlt
    · have hs : maxScan w (n + 1) = maxScan w n := by
        simp [maxScan, hlt]
      rw [hs]
      refine ⟨by omega, h2, ?_, h4⟩
      intro m hm
      rcases Nat.eq_or_lt_of_le hm with heq | hlt2
      · rw [heq]
        exact not_lt.mp hlt
      · exact h3 m (by omega)

/-- The exhaustive maximiser of the spec returns the lowest-index maximiser
of the one-period return over its range. -/
theorem gridMaxModel_lowestArgmax (pow : R → R → R) : LowestArgmax pow (gridMaxModel pow) := by
  intro klo nksub y eta beta K Exp hpos _
  obtain ⟨h1, h2, h3, h4⟩ := maxScan_spec
    (fun m : Nat => bellmanReturn pow klo y eta beta K Exp (klo + (m : Int))) (nksub.toNat - 1)
  simp only [gridMaxModel]
  refine ⟨by omega, by omega, h2, ?_, ?_⟩
  · intro k hk0 hk1
    have := h3 (k - klo).toNat (by omega)
    have hk : klo + ((k - klo).toNat : Int) = k := by omega
    simp only [hk] at this
    exact this
  · intro k hk0 hk1
    have := h4 (k - klo).toNat (by omega)
    have hk : klo + ((k - klo).toNat : Int) = k := by omega
    simp only [hk] at this
    exact this

theorem LowestArgmax.returnsValueAt {pow : R → R → R} {M : Maximizer R}
    (h : LowestArgmax pow M) : ReturnsValueAt pow M := by
  intro klo nksub y eta beta K Exp hpos hlen
  obtain ⟨h1, h2, h3, _⟩ := h klo nksub y eta beta K Exp hpos hlen
  exact ⟨h1, h2, h3⟩

theorem ReturnsValueAt.inRange {pow : R → R → R} {M : Maximizer R}
    (h : ReturnsValueAt pow M) : InRange M := by
  intro klo nksub y eta beta K Exp hpos hlen
  obtain ⟨h1, h2, _⟩ := h klo nksub y eta beta K Exp hpos hlen
  exact ⟨h1, h2⟩

end Sweep

theorem nodup_sweepCells {R : Type} (param : parameters R) : (sweepCells param).Nodup :=
  List.Nodup.product (List.nodup_range _) (List.nodup_range _)

theorem mem_sweepCells {R : Type} (param : parameters R) (i j : Nat) :
    (i, j) ∈ sweepCells param ↔ (i : Int) < param.nk ∧ (j : Int) < param.nz := by
  have h := @List.mem_product Nat Nat (List.range param.nk.toNat) (List.range param.nz.toNat) i j
  rw [List.mem_range, List.mem_range] at h
  refine Iff.trans h ?_
  omega

section Sweep2

variable {R : Type} [LinearOrderedField R]

theorem rowDot_eq_sum (nz : Int) (a b : VectorXR R) :
    rowDot nz a b = ∑ l in Finset.range nz.toNat, a (l : Int) * b (l : Int) := by
  unfold rowDot
  induction nz.toNat with
  | zero => simp
  | succ n ih =>
    rw [List.range_succ, List.foldl_append, ih, Finset.sum_range_succ]
    rfl

theorem getElem?_blockTimesRow (nz : Int) (V0 P : MatrixXR R) (klo nksub j : Int) (m : Nat)
    (hm : (m : Int) < nksub) :
    (blockTimesRow nz V0 P klo nksub j)[m]? = some (rowDot nz (V0 (klo + (m : Int))) (P j)) := by
  have h : m < nksub.toNat := by omega
  simp [blockTimesRow, h]

theorem getD_blockTimesRow (nz : Int) (V0 P : MatrixXR R) (klo nksub j : Int) (k : Int)
    (hk0 : klo ≤ k) (hk1 : k < klo + nksub) :
    (blockTimesRow nz V0 P klo nksub j).getD (k - klo).toNat 0 = rowDot nz (V0 k) (P j) := by
  have h := getElem?_blockTimesRow nz V0 P klo nksub j (k - klo).toNat (by omega)
  have hk : klo + ((k - klo).toNat : Int) = k := by omega
  rw [hk] at h
  simp [List.getD, h]

theorem foldl_product {α β σ : Type} (f : σ → α × β → σ) (l₁ : List α) (l₂ : List β) (s : σ) :
    (List.product l₁ l₂).foldl f s = l₁.foldl (fun s a => l₂.foldl (fun s b => f s (a, b)) s) s := by
  induction l₁ generalizing s with
  | nil => rfl
  | cons a l ih =>
    rw [show (a :: l).product l₂ = List.map (Prod.mk a) l₂ ++ l.product l₂ from
      List.product_cons a l l₂, List.foldl_append, List.foldl_map, ih]
    rfl

/-- The sweep is the loop body applied to the cells in row-major order. -/
theorem vfStep_eq_foldl_cells (E : Extern R) (param : parameters R) (howard : Bool)
    (K Z : VectorXR R) (P V0 V : MatrixXR R) (G : MatrixXi) :
    vfStep E param howard K Z P V0 V G =
      (sweepCells param).foldl
        (fun s c => vfCell E param howard K Z P V0 (c.1 : Int) (c.2 : Int) s) (V, G) := by
  unfold sweepCells
  rw [foldl_product]
  rfl

/-- In policy-evaluation mode the policy matrix is returned as it came. -/
theorem vfStep_howard_policy (E : Extern R) (param : parameters R)
    (K Z : VectorXR R) (P V0 V : MatrixXR R) (G : MatrixXi) :
    (vfStep E param true K Z P V0 V G).2 = G := by
  funext a b
  have h := congrArg Prod.snd (vfStep_apply E param true K Z P V0 V G a b)
  simp only [] at h
  rw [h]
  split_ifs
  · simp [cellVal_howard, policySeen]
  · rfl

theorem maxCall_congr_pos (E : Extern R) (param : parameters R) (K Z : VectorXR R)
    (P V0 : MatrixXR R) (G G' : MatrixXi) (i j : Int)
    (h : 0 < i → G (i - 1) j = G' (i - 1) j) :
    maxCall E param K Z P V0 G i j = maxCall E param K Z P V0 G' i j := by
  unfold maxCall monotoneLo
  by_cases hi : i > 0
  · simp only [hi, if_true, h hi]
  · simp only [hi, if_false]

/-- A maximisation sweep with a recognised selector leaves in the cells of
the grid values that do not depend on the `V` and `G` that entered the call. -/
theorem vfStep_max_indep (E : Extern R) (param : parameters R) (K Z : VectorXR R)
    (P V0 : MatrixXR R) (hsel : param.maxtype = 'g' ∨ param.maxtype = 'b')
    (V V' : MatrixXR R) (G G' : MatrixXi) (n : Nat) (j : Int)
    (hn : (n : Int) < param.nk) (hj0 : 0 ≤ j) (hj : j < param.nz) :
    ((vfStep E param false K Z P V0 V G).1 (n : Int) j,
        (vfStep E param false K Z P V0 V G).2 (n : Int) j) =
      ((vfStep E param false K Z P V0 V' G').1 (n : Int) j,
        (vfStep E param false K Z P V0 V' G').2 (n : Int) j) := by
  induction n with
  | zero =>
    rw [vfStep_max_apply E param K Z P V0 hsel V G _ j (by omega) hn hj0 hj,
      vfStep_max_apply E param K Z P V0 hsel V' G' _ j (by omega) hn hj0 hj]
    apply maxCall_congr_pos
    intro h
    exact absurd h (by simp)
  | succ n ih =>
    rw [vfStep_max_apply E param K Z P V0 hsel V G _ j (by omega) hn hj0 hj,
      vfStep_max_apply E param K Z P V0 hsel V' G' _ j (by omega) hn hj0 hj]
    apply maxCall_congr_pos
    intro _
    have hpred : ((n + 1 : Nat) : Int) - 1 = (n : Int) := by omega
    rw [hpred]
    exact congrArg Prod.snd (ih (by omega))

end Sweep2

/-! ## Monotone policy -/

section Monotone

variable {R : Type} [LinearOrderedField R]
variable (E : Extern R) (param : parameters R) (K Z : VectorXR R) (P V0 : MatrixXR R)

/-- A concave utility and resources that rise with capital give concavity
on the grid. -/
theorem concaveOnGrid_of_concaveUtility (j : Int) (hK : StrictIncr param.nk K)
    (hu : ConcaveUtility E param) (hres : ResourcesIncr E param K Z j) :
    ConcaveOnGrid E param K Z j := by
  intro i k' k hi0 hi hk0 hkk hk hfeas
  have hKk : K k' ≤ K k := le_of_lt (hK k' k hk0 hkk hk)
  have h := hu (ydepK E param K Z (i - 1) j - K k) (ydepK E param K Z (i - 1) j - K k')
    (ydepK E param K Z i j - ydepK E param K Z (i - 1) j) (by linarith) (by linarith)
    (by linarith [hres i hi0 hi])
  have e1 : ydepK E param K Z (i - 1) j - K k'
      + (ydepK E param K Z i j - ydepK E param K Z (i - 1) j) = ydepK E param K Z i j - K k' := by
    ring
  have e2 : ydepK E param K Z (i - 1) j - K k
      + (ydepK E param K Z i j - ydepK E param K Z (i - 1) j) = ydepK E param K Z i j - K k := by
    ring
  rw [e1, e2] at h
  exact h

theorem bellmanReturn_block (i j klo nksub k : Int) (h0 : klo ≤ k) (h1 : k < klo + nksub) :
    bellmanReturn E.pow klo (ydepK E param K Z i j) param.eta param.beta K
        (blockTimesRow param.nz V0 P klo nksub j) k
      = cellReturn E param K Z P V0 i j k := by
  unfold bellmanReturn cellReturn crra
  rw [getD_blockTimesRow _ _ _ _ _ _ _ h0 h1]

/-- What a lowest-index maximiser answers at a cell, in terms of the return
over the grid: the lowest best index of `[klo, khi]`. -/
theorem maxCall_lowest (hlow : LowestArgmax E.pow (selectedMax E param)) (G : MatrixXi)
    (i j : Int) (hkhi : 0 ≤ feasibleHi E K (ydepK E param K Z i j)) :
    monotoneLo G i j (feasibleHi E K (ydepK E param K Z i j)) ≤ (maxCall E param K Z P V0 G i j).2
      ∧ (maxCall E param K Z P V0 G i j).2 ≤ feasibleHi E K (ydepK E param K Z i j)
      ∧ (maxCall E param K Z P V0 G i j).1
          = cellReturn E param K Z P V0 i j (maxCall E param K Z P V0 G i j).2
      ∧ (∀ k : Int, monotoneLo G i j (feasibleHi E K (ydepK E param K Z i j)) ≤ k →
          k ≤ feasibleHi E K (ydepK E param K Z i j) →
          cellReturn E param K Z P V0 i j k
            ≤ cellReturn E param K Z P V0 i j (maxCall E param K Z P V0 G i j).2)
      ∧ (∀ k : Int, monotoneLo G i j (feasibleHi E K (ydepK E param K Z i j)) ≤ k →
          k < (maxCall E param K Z P V0 G i j).2 →
          cellReturn E param K Z P V0 i j k
            < cellReturn E param K Z P V0 i j (maxCall E param K Z P V0 G i j).2) := by
  generalize hkh : feasibleHi E K (ydepK E param K Z i j) = khi at hkhi ⊢
  have hb := monotoneLo_bounds G i j khi hkhi
  generalize hklo : monotoneLo G i j khi = klo at hb ⊢
  have hmc : maxCall E param K Z P V0 G i j
      = selectedMax E param klo (khi - klo + 1) (ydepK E param K Z i j) param.eta param.beta K
          (blockTimesRow param.nz V0 P klo (khi - klo + 1) j) := by
    unfold maxCall
    simp only [hkh, hklo]
  have hlen := length_blockTimesRow param.nz V0 P klo (khi - klo + 1) j
  obtain ⟨h1, h2, h3, h4, h5⟩ := hlow klo (khi - klo + 1) (ydepK E param K Z i j) param.eta
    param.beta K (blockTimesRow param.nz V0 P klo (khi - klo + 1) j) (by omega)
    (by rw [hlen]; omega)
  rw [← hmc] at h1 h2 h3 h4 h5
  rw [bellmanReturn_block E param K Z P V0 i j klo _ _ h1 h2] at h3
  refine ⟨h1, by omega, h3, ?_, ?_⟩
  · intro k hk0 hk1
    have := h4 k hk0 (by omega)
    rw [bellmanReturn_block E param K Z P V0 i j klo _ _ hk0 (by omega), h3] at this
    exact this
  · intro k hk0 hk1
    have := h5 k hk0 hk1
    rw [bellmanReturn_block E param K Z P V0 i j klo _ _ hk0 (by omega), h3] at this
    exact this

/-- Single crossing: below the lowest best index `g` of row `i-1`, the return
of row `i` is strictly smaller than at `g`. -/
theorem cellReturn_lt_of_lowestBest (j : Int) (hK : StrictIncr param.nk K)
    (hconc : ConcaveOnGrid E param K Z j) (i g : Int) (hi0 : 1 ≤ i) (hi : i < param.nk)
    (hprev : LargestBelow param.nk K (ydepK E param K Z (i - 1) j)
      (feasibleHi E K (ydepK E param K Z (i - 1) j)))
    (hg : LowestBest E param K Z P V0 (i - 1) j g) (k : Int) (hk0 : 0 ≤ k) (hk : k < g) :
    cellReturn E param K Z P V0 i j k < cellReturn E param K Z P V0 i j g := by
  obtain ⟨g0, g1, _, g3⟩ := hg
  obtain ⟨_, p1, p2, _⟩ := hprev
  have hKg : K g ≤ ydepK E param K Z (i - 1) j :=
    le_trans (StrictIncr.le_of_le hK g0 g1 p1) p2
  have hc := hconc i k g hi0 hi hk0 hk (by omega) hKg
  have hlt := g3 k hk0 hk
  unfold cellReturn at hlt ⊢
  linarith

theorem monotoneLo_cases (G : MatrixXi) (i j khi : Int) :
    monotoneLo G i j khi = 0 ∨
      (0 < i ∧ 0 < G (i - 1) j ∧ G (i - 1) j < khi ∧ monotoneLo G i j khi = G (i - 1) j) := by
  unfold monotoneLo
  simp only []
  split_ifs with h1 h2
  · exact Or.inr ⟨h1, h2.1, h2.2, rfl⟩
  · exact Or.inl rfl
  · exact Or.inl rfl

/-- The maximiser call at a cell answers with the lowest best index of the
whole feasible range, if row `i-1` holds the lowest best index of its own. -/
theorem maxCall_lowestBest (j : Int) (hK : StrictIncr param.nk K)
    (hconc : ConcaveOnGrid E param K Z j)
    (hlow : LowestArgmax E.pow (selectedMax E param)) (G : MatrixXi) (i : Int)
    (hi : i < param.nk)
    (hkhi : 0 ≤ feasibleHi E K (ydepK E param K Z i j))
    (hfeas : 0 < i → LargestBelow param.nk K (ydepK E param K Z (i - 1) j)
      (feasibleHi E K (ydepK E param K Z (i - 1) j)))
    (hprev : 0 < i → LowestBest E param K Z P V0 (i - 1) j (G (i - 1) j)) :
    LowestBest E param K Z P V0 i j (maxCall E param K Z P V0 G i j).2 := by
  obtain ⟨h1, h2, _, h4, h5⟩ := maxCall_lowest E param K Z P V0 hlow G i j hkhi
  rcases monotoneLo_cases G i j (feasibleHi E K (ydepK E param K Z i j)) with h0 | ⟨hi0, hg0, hg1, hgeq⟩
  · rw [h0] at h1 h4 h5
    exact ⟨h1, h2, h4, h5⟩
  · rw [hgeq] at h1 h4 h5
    have hcross := cellReturn_lt_of_lowestBest E param K Z P V0 j hK hconc i (G (i - 1) j)
      (by omega) hi (hfeas hi0) (hprev hi0)
    have hgp := h4 (G (i - 1) j) (le_refl _) (by omega)
    refine ⟨by omega, h2, ?_, ?_⟩
    · intro k hk0 hk1
      by_cases hk : G (i - 1) j ≤ k
      · exact h4 k hk hk1
      · exact le_of_lt (lt_of_lt_of_le (hcross k hk0 (by omega)) hgp)
    · intro k hk0 hk1
      by_cases hk : G (i - 1) j ≤ k
      · exact h5 k hk hk1
      · exact lt_of_lt_of_le (hcross k hk0 (by omega)) hgp

/-- After a maximisation sweep every cell of column `j` holds the lowest best
index of its whole feasible range. -/
theorem vfStep_lowestBest (j : Int) (hj0 : 0 ≤ j) (hj : j < param.nz)
    (hsel : param.maxtype = 'g' ∨ param.maxtype = 'b')
    (hK : StrictIncr param.nk K)
    (hconc : ConcaveOnGrid E param K Z j)
    (hlow : LowestArgmax E.pow (selectedMax E param))
    (hfeas : ∀ i : Int, 0 ≤ i → i < param.nk →
      LargestBelow param.nk K (ydepK E param K Z i j) (feasibleHi E K (ydepK E param K Z i j)))
    (V : MatrixXR R) (G : MatrixXi) (n : Nat) (hn : (n : Int) < param.nk) :
    LowestBest E param K Z P V0 (n : Int) j
      ((vfStep E param false K Z P V0 V G).2 (n : Int) j) := by
  induction n with
  | zero =>
    have hG := congrArg Prod.snd
      (vfStep_max_apply E param K Z P V0 hsel V G ((0 : Nat) : Int) j (by omega) hn hj0 hj)
    simp only [] at hG
    rw [hG]
    apply maxCall_lowestBest E param K Z P V0 j hK hconc hlow _ _ hn
      (hfeas _ (by omega) hn).1
    · intro h
      exact absurd h (by simp)
    · intro h
      exact absurd h (by simp)
  | succ n ih =>
    have hG := congrArg Prod.snd
      (vfStep_max_apply E param K Z P V0 hsel V G ((n + 1 : Nat) : Int) j (by omega) hn hj0 hj)
    simp only [] at hG
    have hpred : ((n + 1 : Nat) : Int) - 1 = (n : Int) := by omega
    rw [hG]
    apply maxCall_lowestBest E param K Z P V0 j hK hconc hlow _ _ hn
      (hfeas _ (by omega) hn).1
    · intro _
      rw [hpred]
      exact hfeas _ (by omega) (by omega)
    · intro _
      rw [hpred]
      exact ih (by omega)

/-- Monotone policy in one column: after a maximisation sweep the policy
index does not fall from row `i-1` to row `i`. -/
theorem vfStep_policy_mono (j : Int) (hj0 : 0 ≤ j) (hj : j < param.nz)
    (hsel : param.maxtype = 'g' ∨ param.maxtype = 'b')
    (hK : StrictIncr param.nk K)
    (hres : ResourcesIncr E param K Z j)
    (hconc : ConcaveOnGrid E param K Z j)
    (hlow : LowestArgmax E.pow (selectedMax E param))
    (hfeas : ∀ i : Int, 0 ≤ i → i < param.nk →
      LargestBelow param.nk K (ydepK E param K Z i j) (feasibleHi E K (ydepK E param K Z i j)))
    (V : MatrixXR R) (G : MatrixXi) (i : Int) (hi0 : 1 ≤ i) (hi : i < param.nk) :
    (vfStep E param false K Z P V0 V G).2 (i - 1) j ≤ (vfStep E param false K Z P V0 V G).2 i j := by
  have hcur := vfStep_lowestBest E param K Z P V0 j hj0 hj hsel hK hconc hlow hfeas V G
    i.toNat (by omega)
  have hprv := vfStep_lowestBest E param K Z P V0 j hj0 hj hsel hK hconc hlow hfeas V G
    (i - 1).toNat (by omega)
  have e1 : ((i.toNat : Nat) : Int) = i := by omega
  have e2 : (((i - 1).toNat : Nat) : Int) = i - 1 := by omega
  rw [e1] at hcur
  rw [e2] at hprv
  by_contra hlt
  have hlt2 : (vfStep E param false K Z P V0 V G).2 i j
      < (vfStep E param false K Z P V0 V G).2 (i - 1) j := not_le.mp hlt
  have hcross := cellReturn_lt_of_lowestBest E param K Z P V0 j hK hconc i _ hi0 hi
    (hfeas (i - 1) (by omega) (by omega)) hprv _ hcur.1 hlt2
  obtain ⟨q0, q1, q2, q3⟩ := hfeas (i - 1) (by omega) (by omega)
  obtain ⟨_, _, _, r3⟩ := hfeas i (by omega) hi
  have hkk : feasibleHi E K (ydepK E param K Z (i - 1) j)
      ≤ feasibleHi E K (ydepK E param K Z i j) :=
    r3 _ q0 q1 (le_trans q2 (hres i hi0 hi))
  have hle := hcur.2.2.1 _ hprv.1 (le_trans hprv.2.1 hkk)
  exact absurd hcross (not_lt.mpr hle)

end Monotone

/-! ## Tightened and full ranges -/

section Tightening

variable {R : Type} [LinearOrderedField R]
variable (E : Extern R) (param : parameters R) (K Z : VectorXR R) (P V0 : MatrixXR R)

/-- A range has at most one lowest-index maximiser. -/
theorem lowest_argmax_unique (f : Int → R) (lo hi k₁ k₂ : Int)
    (h₁ : lo ≤ k₁ ∧ k₁ ≤ hi) (h₂ : lo ≤ k₂ ∧ k₂ ≤ hi)
    (m₁ : ∀ k : Int, lo ≤ k → k ≤ hi → f k ≤ f k₁) (l₁ : ∀ k : Int, lo ≤ k → k < k₁ → f k < f k₁)
    (m₂ : ∀ k : Int, lo ≤ k → k ≤ hi → f k ≤ f k₂) (l₂ : ∀ k : Int, lo ≤ k → k < k₂ → f k < f k₂) :
    k₁ = k₂ := by
  rcases lt_trichotomy k₁ k₂ with h | h | h
  · exact absurd (l₂ k₁ h₁.1 h) (not_lt.mpr (m₁ k₂ h₂.1 h₂.2))
  · exact h
  · exact absurd (l₁ k₂ h₂.1 h) (not_lt.mpr (m₂ k₁ h₁.1 h₁.2))

theorem monotoneLo_zero_policy (i j khi : Int) : monotoneLo (fun _ _ => 0) i j khi = 0 := by
  rcases monotoneLo_cases (fun _ _ => 0) i j khi with h | ⟨_, h1, _, _⟩
  · exact h
  · exact absurd h1 (lt_irrefl 0)

/-- The call a cell makes when row `i-1` of the policy holds `0` is the call
over the full range `[0, khi]`. -/
theorem maxCall_zero_policy (i j : Int) :
    maxCall E param K Z P V0 (fun _ _ => 0) i j =
      selectedMax E param 0 (feasibleHi E K (ydepK E param K Z i j) - 0 + 1)
        (ydepK E param K Z i j) param.eta param.beta K
        (blockTimesRow param.nz V0 P 0 (feasibleHi E K (ydepK E param K Z i j) - 0 + 1) j) := by
  unfold maxCall
  simp only [monotoneLo_zero_policy]

/-- A lowest-index maximiser called at a cell returns the lowest best index
`kstar` of the full range, whenever its own range starts at or below `kstar`. -/
theorem maxCall_eq_of_lowestBest (hlow : LowestArgmax E.pow (selectedMax E param))
    (G : MatrixXi) (i j kstar : Int) (hbest : LowestBest E param K Z P V0 i j kstar)
    (hk : monotoneLo G i j (feasibleHi E K (ydepK E param K Z i j)) ≤ kstar) :
    maxCall E param K Z P V0 G i j = (cellReturn E param K Z P V0 i j kstar, kstar) := by
  obtain ⟨b0, b1, b2, b3⟩ := hbest
  obtain ⟨h1, h2, h3, h4, h5⟩ := maxCall_lowest E param K Z P V0 hlow G i j (le_trans b0 b1)
  have hlo := (monotoneLo_bounds G i j _ (le_trans b0 b1)).1
  have heq : (maxCall E param K Z P V0 G i j).2 = kstar :=
    lowest_argmax_unique (cellReturn E param K Z P V0 i j)
      (monotoneLo G i j (feasibleHi E K (ydepK E param K Z i j)))
      (feasibleHi E K (ydepK E param K Z i j)) _ _ ⟨h1, h2⟩ ⟨hk, b1⟩ h4 h5
      (fun k hk0 hk1 => b2 k (le_trans hlo hk0) hk1)
      (fun k hk0 hk1 => b3 k (le_trans hlo hk0) hk1)
  rw [heq] at h3
  exact Prod.ext h3 heq

end Tightening

/-! ## The scenario of the spec -/

section Scenario

theorem scenK_strictIncr {R : Type} [LinearOrderedField R] : StrictIncr 3 (scenK : VectorXR R) := by
  intro a b ha hab hb
  have h : (a = 0 ∧ b = 1) ∨ (a = 0 ∧ b = 2) ∨ (a = 1 ∧ b = 2) := by omega
  rcases h with ⟨rfl, rfl⟩ | ⟨rfl, rfl⟩ | ⟨rfl, rfl⟩ <;> simp [scenK]
  norm_num

/-- The real power function meets what the scenario asks of `pow`:
`1^0.3 = 1` and `2^0.3`, `3^0.3` lie in `[1, 2)`. -/
theorem scenario_real_powers :
    (1 : ℝ) ^ ((3 : ℝ) / 10) = 1
      ∧ (1 ≤ (2 : ℝ) ^ ((3 : ℝ) / 10) ∧ (2 : ℝ) ^ ((3 : ℝ) / 10) < 2)
      ∧ (1 ≤ (3 : ℝ) ^ ((3 : ℝ) / 10) ∧ (3 : ℝ) ^ ((3 : ℝ) / 10) < 2) := by
  have key : ∀ x : ℝ, 1 ≤ x → x ^ (3 : ℕ) < 2 ^ (10 : ℕ) →
      1 ≤ x ^ ((3 : ℝ) / 10) ∧ x ^ ((3 : ℝ) / 10) < 2 := by
    intro x hx hlt
    have hx0 : (0 : ℝ) ≤ x := by linarith
    constructor
    · exact Real.one_le_rpow hx (by norm_num)
    · have h2 : (2 : ℝ) = ((2 : ℝ) ^ (10 : ℕ)) ^ ((1 : ℝ) / 10) := by
        rw [← Real.rpow_natCast, ← Real.rpow_mul (by norm_num)]
        norm_num
      have h3 : x ^ ((3 : ℝ) / 10) = (x ^ (3 : ℕ)) ^ ((1 : ℝ) / 10) := by
        rw [← Real.rpow_natCast, ← Real.rpow_mul hx0]
        norm_num
      rw [h3]
      conv_rhs => rw [h2]
      exact Real.rpow_lt_rpow (by positivity) hlt (by norm_num)
  exact ⟨Real.one_rpow _, key 2 (by norm_num) (by norm_num), key 3 (by norm_num) (by norm_num)⟩

theorem scen_lowestArgmax (m : Char) : LowestArgmax scenE.pow (selectedMax scenE (scenParam m)) := by
  have h : selectedMax scenE (scenParam m) = gridMaxModel scenPow := by
    unfold selectedMax
    split_ifs <;> rfl
  rw [h]
  exact gridMaxModel_lowestArgmax scenPow

theorem scen_binaryVal (i : Int) (hi0 : 0 ≤ i) (hi : i < 3) :
    BinaryValSpec 3 scenK (ydepK scenE (scenParam 'g') scenK scenZ i 0)
      (scenE.binaryVal (ydepK scenE (scenParam 'g') scenK scenZ i 0) scenK) := by
  have h : i = 0 ∨ i = 1 ∨ i = 2 := by omega
  have hsmall : ∀ r : ℚ, scenE.binaryVal r scenK = 1 → scenK 0 ≤ r → r < scenK 1 →
      SmallestAbove 3 scenK r 1 := by
    intro r _ h0 h1
    refine ⟨by decide, by decide, h1, ?_⟩
    intro m hm0 hm1 hm
    by_contra hlt
    have : m = 0 := by omega
    subst this
    exact absurd h0 (not_le.mpr hm)
  rcases h with rfl | rfl | rfl
  · right
    have hb : scenE.binaryVal (ydepK scenE (scenParam 'g') scenK scenZ 0 0) scenK = 1 := by
      decide!
    rw [hb]
    exact hsmall _ hb (by decide!) (by decide!)
  · right
    have hb : scenE.binaryVal (ydepK scenE (scenParam 'g') scenK scenZ 1 0) scenK = 1 := by
      decide!
    rw [hb]
    exact hsmall _ hb (by decide!) (by decide!)
  · right
    have hb : scenE.binaryVal (ydepK scenE (scenParam 'g') scenK scenZ 2 0) scenK = 1 := by
      decide!
    rw [hb]
    exact hsmall _ hb (by decide!) (by decide!)

end Scenario

/-! ## Other visiting orders -/

section Orders

variable {R : Type} [LinearOrderedField R]
variable (E : Extern R) (param : parameters R) (howard : Bool)
variable (K Z : VectorXR R) (P V0 : MatrixXR R)

theorem sweepOver_snoc (p : List (Nat × Nat)) (c : Nat × Nat) (V : MatrixXR R) (G : MatrixXi) :
    sweepOver E param howard K Z P V0 (p ++ [c]) V G =
      vfCell E param howard K Z P V0 (c.1 : Int) (c.2 : Int)
        (sweepOver E param howard K Z P V0 p V G) := by
  unfold sweepOver
  rw [List.foldl_append]
  rfl

/-- After any initial part `p` of a column-ordered list, a visited cell holds
what the loop body stores there, computed from the incoming `V` and from a
policy whose row `i-1` is the current one; the other cells are untouched. -/
theorem sweepOver_prefix (l : List (Nat × Nat)) (hord : ColumnOrdered l)
    (V : MatrixXR R) (G : MatrixXi) (p : List (Nat × Nat)) :
    ∀ rest : List (Nat × Nat), p ++ rest = l →
      (∀ i j : Nat, (i, j) ∈ p →
        ((sweepOver E param howard K Z P V0 p V G).1 (i : Int) (j : Int),
          (sweepOver E param howard K Z P V0 p V G).2 (i : Int) (j : Int)) =
          cellVal E param howard K Z P V0 V
            (policySeen (i : Int) G (sweepOver E param howard K Z P V0 p V G).2) (i : Int) (j : Int))
      ∧ (∀ a b : Int, (∀ i j : Nat, (i, j) ∈ p → ¬ (a = (i : Int) ∧ b = (j : Int))) →
        ((sweepOver E param howard K Z P V0 p V G).1 a b,
          (sweepOver E param howard K Z P V0 p V G).2 a b) = (V a b, G a b)) := by
  induction p using List.reverseRecOn with
  | nil =>
    intro rest _
    refine ⟨fun i j h => absurd h (List.not_mem_nil _), fun a b _ => rfl⟩
  | append_singleton p c ih =>
    intro rest h
    have hl : p ++ (c :: rest) = l := by
      rw [← h, List.append_assoc]
      rfl
    obtain ⟨ih1, ih2⟩ := ih (c :: rest) hl
    have hpw : (p ++ (c :: rest)).Pairwise (fun c d : Nat × Nat => c.2 = d.2 → c.1 < d.1) := by
      rw [hl]
      exact hord
    rw [List.pairwise_append] at hpw
    obtain ⟨_, _, hpc⟩ := hpw
    have hbefore : ∀ x : Nat × Nat, x ∈ p → x.2 = c.2 → x.1 < c.1 :=
      fun x hx => hpc x hx c (List.mem_cons_self _ _)
    have hcp : c ∉ p := fun hc => absurd (hbefore c hc rfl) (lt_irrefl _)
    rw [sweepOver_snoc]
    constructor
    · intro i j hij
      rw [vfCell_apply]
      rcases List.mem_append.mp hij with hp | hc
      · have hne : ¬ ((i : Int) = (c.1 : Int) ∧ (j : Int) = (c.2 : Int)) := by
          rintro ⟨h1, h2⟩
          have h3 : (i, j) = c := Prod.ext (by exact_mod_cast h1) (by exact_mod_cast h2)
          exact hcp (h3 ▸ hp)
        rw [if_neg hne, ih1 i j hp]
        have hne2 : ¬ ((i : Int) - 1 = (c.1 : Int) ∧ (j : Int) = (c.2 : Int)) := by
          rintro ⟨h1, h2⟩
          have h3 : (i, j).1 < c.1 := hbefore (i, j) hp (by exact_mod_cast h2)
          have h4 : i < c.1 := h3
          omega
        have h5 := vfCell_apply E param howard K Z P V0 (c.1 : Int) (c.2 : Int)
          (sweepOver E param howard K Z P V0 p V G) ((i : Int) - 1) (j : Int)
        rw [if_neg hne2] at h5
        have hlt : (i : Int) - 1 < (i : Int) := by omega
        apply cellVal_congr
        · rfl
        · simp only [policySeen, lt_irrefl, if_false]
        · simp only [policySeen, hlt, if_true]
          exact (congrArg Prod.snd h5).symm
      · have hc' : (i, j) = c := List.mem_singleton.mp hc
        subst hc'
        rw [if_pos ⟨rfl, rfl⟩]
        have hS := ih2 (i : Int) (j : Int) (by
          rintro i' j' hp' ⟨h1, h2⟩
          have h3 : (i', j') = (i, j) := Prod.ext (by exact_mod_cast h1.symm) (by exact_mod_cast h2.symm)
          exact hcp (h3 ▸ hp'))
        have hne2 : ¬ ((i : Int) - 1 = (i : Int) ∧ (j : Int) = (j : Int)) := by omega
        have h5 := vfCell_apply E param howard K Z P V0 (i : Int) (j : Int)
          (sweepOver E param howard K Z P V0 p V G) ((i : Int) - 1) (j : Int)
        rw [if_neg hne2] at h5
        have hlt : (i : Int) - 1 < (i : Int) := by omega
        apply cellVal_congr
        · exact congrArg Prod.fst hS
        · simp only [policySeen, lt_irrefl, if_false]
          exact congrArg Prod.snd hS
        · simp only [policySeen, hlt, if_true]
          exact (congrArg Prod.snd h5).symm
    · intro a b hab
      have hne : ¬ (a = (c.1 : Int) ∧ b = (c.2 : Int)) :=
        hab c.1 c.2 (List.mem_append_right _ (List.mem_singleton.mpr rfl))
      rw [vfCell_apply, if_neg hne]
      exact ih2 a b (fun i j hp => hab i j (List.mem_append_left _ hp))

/-- The characterisation of `vfStep_apply` holds for every admissible order. -/
theorem sweepOver_apply (l : List (Nat × Nat)) (hl : AdmissibleOrder param l)
    (V : MatrixXR R) (G : MatrixXi) (a b : Int) :
    ((sweepOver E param howard K Z P V0 l V G).1 a b,
        (sweepOver E param howard K Z P V0 l V G).2 a b) =
      if 0 ≤ a ∧ a < param.nk ∧ 0 ≤ b ∧ b < param.nz then
        cellVal E param howard K Z P V0 V
          (policySeen a G (sweepOver E param howard K Z P V0 l V G).2) a b
      else (V a b, G a b) := by
  obtain ⟨h1, h2⟩ := sweepOver_prefix E param howard K Z P V0 l hl.1 V G l [] (List.append_nil l)
  by_cases hin : 0 ≤ a ∧ a < param.nk ∧ 0 ≤ b ∧ b < param.nz
  · rw [if_pos hin]
    have ha : ((a.toNat : Nat) : Int) = a := by omega
    have hb : ((b.toNat : Nat) : Int) = b := by omega
    have hmem : (a.toNat, b.toNat) ∈ l := (hl.2 a.toNat b.toNat).mpr (by omega)
    have := h1 a.toNat b.toNat hmem
    rw [ha, hb] at this
    exact this
  · rw [if_neg hin]
    apply h2
    rintro i j hij ⟨rfl, rfl⟩
    have := (hl.2 i j).mp hij
    omega

/-- Two results that satisfy the characterisation of `vfStep_apply` for
inputs that agree on column `b` agree on column `b`.  The inputs may differ
in `Z` and `P` outside `Z[b]` and row `b` of `P`. -/
theorem sweep_column_unique (Z' : VectorXR R) (P' : MatrixXR R) (V V' : MatrixXR R)
    (G G' : MatrixXi) (S T : MatrixXR R × MatrixXi) (b : Int)
    (hcell : ∀ (a : Int) (H H' : MatrixXi), H a b = H' a b → H (a - 1) b = H' (a - 1) b →
      cellVal E param howard K Z P V0 V H a b = cellVal E param howard K Z' P' V0 V' H' a b)
    (hV : ∀ a : Int, V a b = V' a b) (hG : ∀ a : Int, G a b = G' a b)
    (hS : ∀ a : Int, (S.1 a b, S.2 a b) =
      if 0 ≤ a ∧ a < param.nk ∧ 0 ≤ b ∧ b < param.nz then
        cellVal E param howard K Z P V0 V (policySeen a G S.2) a b
      else (V a b, G a b))
    (hT : ∀ a : Int, (T.1 a b, T.2 a b) =
      if 0 ≤ a ∧ a < param.nk ∧ 0 ≤ b ∧ b < param.nz then
        cellVal E param howard K Z' P' V0 V' (policySeen a G' T.2) a b
      else (V' a b, G' a b)) :
    ∀ a : Int, (S.1 a b, S.2 a b) = (T.1 a b, T.2 a b) := by
  have hneg : ∀ a : Int, a < 0 → (S.1 a b, S.2 a b) = (T.1 a b, T.2 a b) := by
    intro a ha
    have hn : ¬ (0 ≤ a ∧ a < param.nk ∧ 0 ≤ b ∧ b < param.nz) := by omega
    rw [hS a, hT a, if_neg hn, if_neg hn, hV a, hG a]
  have hnat : ∀ n : Nat, (S.1 (n : Int) b, S.2 (n : Int) b) = (T.1 (n : Int) b, T.2 (n : Int) b) := by
    intro n
    induction n with
    | zero =>
      rw [hS, hT]
      split_ifs with hin
      · apply hcell
        · simp only [policySeen, lt_irrefl, if_false]
          exact hG _
        · have hlt : (((0 : Nat) : Int) - 1) < ((0 : Nat) : Int) := by omega
          simp only [policySeen, hlt, if_true]
          exact congrArg Prod.snd (hneg _ (by omega))
      · rw [hV, hG]
    | succ n ih =>
      rw [hS, hT]
      split_ifs with hin
      · apply hcell
        · simp only [policySeen, lt_irrefl, if_false]
          exact hG _
        · have hlt : (((n + 1 : Nat) : Int) - 1) < ((n + 1 : Nat) : Int) := by omega
          have hpred : ((n + 1 : Nat) : Int) - 1 = (n : Int) := by omega
          simp only [policySeen, hlt, if_true]
          rw [hpred]
          exact congrArg Prod.snd ih
      · rw [hV, hG]
  intro a
  by_cases ha : a < 0
  · exact hneg a ha
  · have h := hnat a.toNat
    have e : ((a.toNat : Nat) : Int) = a := by omega
    rw [e] at h
    exact h

end Orders

section Orders2

variable {R : Type} [LinearOrderedField R]
variable (E : Extern R) (param : parameters R) (howard : Bool)
variable (K Z : VectorXR R) (P V0 : MatrixXR R)

/-- What the loop body stores at `(i,j)` depends on `Z` through `Z[j]`, on
`P` through row `j`, and on `V`, `G` through `V(i,j)`, `G(i,j)`, `G(i-1,j)`. -/
theorem cellVal_congr_col (Z' : VectorXR R) (P' : MatrixXR R) (V V' : MatrixXR R)
    (G G' : MatrixXi) (i j : Int) (hZ : Z j = Z' j) (hP : P j = P' j)
    (hV : V i j = V' i j) (hG : G i j = G' i j) (hp : G (i - 1) j = G' (i - 1) j) :
    cellVal E param howard K Z P V0 V G i j = cellVal E param howard K Z' P' V0 V' G' i j := by
  have hb : ∀ klo nksub : Int, blockTimesRow param.nz V0 P klo nksub j
      = blockTimesRow param.nz V0 P' klo nksub j := by
    intro klo nksub
    unfold blockTimesRow
    rw [hP]
  unfold cellVal vfCell monotoneLo ydepK colwiseAdd outer
  simp only [hZ, hP, hp, hG, hb]
  split_ifs <;> simp [setCoeff, hV, hG]

/-- Every admissible visiting order gives the result of `vfStep`. -/
theorem sweepOver_eq_vfStep (l : List (Nat × Nat)) (hl : AdmissibleOrder param l)
    (V : MatrixXR R) (G : MatrixXi) :
    sweepOver E param howard K Z P V0 l V G = vfStep E param howard K Z P V0 V G := by
  have h : ∀ a b : Int,
      ((sweepOver E param howard K Z P V0 l V G).1 a b,
        (sweepOver E param howard K Z P V0 l V G).2 a b) =
      ((vfStep E param howard K Z P V0 V G).1 a b, (vfStep E param howard K Z P V0 V G).2 a b) := by
    intro a b
    exact sweep_column_unique E param howard K Z P V0 Z P V V G G _ _ b
      (fun a H H' h1 h2 => cellVal_congr E param howard K Z P V0 V V H H' a b rfl h1 h2)
      (fun _ => rfl) (fun _ => rfl)
      (fun a => sweepOver_apply E param howard K Z P V0 l hl V G a b)
      (fun a => vfStep_apply E param howard K Z P V0 V G a b) a
  apply Prod.ext
  · funext a b
    exact congrArg Prod.fst (h a b)
  · funext a b
    exact congrArg Prod.snd (h a b)

theorem vfStepColMajor_eq_sweepOver (V : MatrixXR R) (G : MatrixXi) :
    vfStepColMajor E param howard K Z P V0 V G =
      sweepOver E param howard K Z P V0 (colMajorCells param) V G := by
  unfold sweepOver colMajorCells
  rw [List.foldl_map, foldl_product]
  rfl

end Orders2

theorem product_lex (l₁ l₂ : List Nat) (h₁ : l₁.Pairwise (· < ·)) (h₂ : l₂.Pairwise (· < ·)) :
    (List.product l₁ l₂).Pairwise (fun x y => x.1 < y.1 ∨ (x.1 = y.1 ∧ x.2 < y.2)) := by
  induction l₁ with
  | nil => exact List.Pairwise.nil
  | cons a l ih =>
    rw [show (a :: l).product l₂ = List.map (Prod.mk a) l₂ ++ l.product l₂ from
      List.product_cons a l l₂, List.pairwise_append]
    rw [List.pairwise_cons] at h₁
    refine ⟨?_, ih h₁.2, ?_⟩
    · rw [List.pairwise_map]
      exact h₂.imp (fun h => Or.inr ⟨rfl, h⟩)
    · intro x hx y hy
      obtain ⟨b, _, rfl⟩ := List.mem_map.mp hx
      have hy1 : y.1 ∈ l := by
        have hy' : (y.1, y.2) ∈ List.product l l₂ := hy
        exact (List.mem_product.mp hy').1
      exact Or.inl (h₁.1 y.1 hy1)

theorem colMajorCells_admissible {R : Type} (param : parameters R) :
    AdmissibleOrder param (colMajorCells param) := by
  constructor
  · unfold ColumnOrdered colMajorCells
    rw [List.pairwise_map]
    refine (product_lex _ _ (List.pairwise_lt_range _) (List.pairwise_lt_range _)).imp ?_
    intro x y h heq
    rcases h with h | ⟨_, h⟩
    · exact absurd heq (ne_of_lt h)
    · exact h
  · intro i j
    unfold colMajorCells
    rw [List.mem_map]
    constructor
    · rintro ⟨x, hx, hswap⟩
      have hx' : (x.1, x.2) ∈ List.product (List.range param.nz.toNat)
          (List.range param.nk.toNat) := hx
      have h := List.mem_product.mp hx'
      rw [List.mem_range, List.mem_range] at h
      have e1 : x.2 = i := congrArg Prod.fst hswap
      have e2 : x.1 = j := congrArg Prod.snd hswap
      omega
    · intro h
      refine ⟨(j, i), ?_, rfl⟩
      have h2 : j ∈ List.range param.nz.toNat ∧ i ∈ List.range param.nk.toNat := by
        rw [List.mem_range, List.mem_range]
        omega
      exact List.mem_product.mpr h2

section Orders3

variable {R : Type} [LinearOrderedField R]
variable (E : Extern R) (param : parameters R) (howard : Bool)
variable (K Z : VectorXR R) (P V0 : MatrixXR R)

/-- Column `j` of the result of `vfStep` is the same for two inputs that
agree on `Z[j]`, on row `j` of `P` and on column `j` of `V` and `G`. -/
theorem vfStep_column_congr (Z' : VectorXR R) (P' : MatrixXR R) (V V' : MatrixXR R)
    (G G' : MatrixXi) (j : Int) (hZ : Z' j = Z j) (hP : ∀ l : Int, P' j l = P j l)
    (hV : ∀ a : Int, V' a j = V a j) (hG : ∀ a : Int, G' a j = G a j) (a : Int) :
    ((vfStep E param howard K Z' P' V0 V' G').1 a j, (vfStep E param howard K Z' P' V0 V' G').2 a j)
      = ((vfStep E param howard K Z P V0 V G).1 a j, (vfStep E param howard K Z P V0 V G).2 a j) := by
  have hP' : P' j = P j := funext hP
  exact sweep_column_unique E param howard K Z' P' V0 Z P V' V G' G _ _ j
    (fun a H H' h1 h2 =>
      cellVal_congr_col E param howard K Z' P' V0 Z P V' V H H' a j hZ hP' (hV a) h1 h2)
    hV hG
    (fun a => vfStep_apply E param howard K Z' P' V0 V' G' a j)
    (fun a => vfStep_apply E param howard K Z P V0 V G a j) a

/-- In policy-evaluation mode a cell of the grid gets the value of line 113. -/
theorem vfStep_howard_value (V : MatrixXR R) (G : MatrixXi) (i j : Int)
    (hi0 : 0 ≤ i) (hi : i < param.nk) (hj0 : 0 ≤ j) (hj : j < param.nz) :
    (vfStep E param true K Z P V0 V G).1 i j =
      E.pow (ydepK E param K Z i j - K (G i j)) (1 - param.eta) / (1 - param.eta)
        + param.beta * rowDot param.nz (V0 (G i j)) (P j) := by
  have h := congrArg Prod.fst (vfStep_apply E param true K Z P V0 V G i j)
  simp only [] at h
  rw [h, if_pos ⟨hi0, hi, hj0, hj⟩, cellVal_howard]
  simp [policySeen]

/-- In the two modes that write `V`, a cell of column `j` of the result is
the same for two inputs that agree on `Z[j]`, on row `j` of `P` and, in
policy-evaluation mode, on column `j` of `G`. -/
theorem vfStep_column_congr_written
    (hmode : howard = true ∨ param.maxtype = 'g' ∨ param.maxtype = 'b')
    (Z' : VectorXR R) (P' : MatrixXR R) (V V' : MatrixXR R)
    (G G' : MatrixXi) (j : Int) (hZ : Z' j = Z j) (hP : ∀ l : Int, P' j l = P j l)
    (hG : howard = true → ∀ a : Int, G' a j = G a j)
    (i : Int) (hi0 : 0 ≤ i) (hi : i < param.nk) (hj0 : 0 ≤ j) (hj : j < param.nz) :
    ((vfStep E param howard K Z' P' V0 V' G').1 i j, (vfStep E param howard K Z' P' V0 V' G').2 i j)
      = ((vfStep E param howard K Z P V0 V G).1 i j, (vfStep E param howard K Z P V0 V G).2 i j) := by
  cases howard
  · have hsel : param.maxtype = 'g' ∨ param.maxtype = 'b' := by
      rcases hmode with h | h | h
      · exact absurd h (by decide)
      · exact Or.inl h
      · exact Or.inr h
    have hin : ((i.toNat : Nat) : Int) = i := by omega
    have h1 := vfStep_max_indep E param K Z' P' V0 hsel V' V G' G i.toNat j (by omega) hj0 hj
    rw [hin] at h1
    rw [h1]
    exact vfStep_column_congr E param false K Z P V0 Z' P' V V G G j hZ hP
      (fun _ => rfl) (fun _ => rfl) i
  · have hP' : P' j = P j := funext hP
    have hy : ydepK E param K Z' i j = ydepK E param K Z i j := by
      unfold ydepK colwiseAdd outer
      simp only [hZ]
    rw [vfStep_howard_policy, vfStep_howard_policy,
      vfStep_howard_value E param K Z' P' V0 V' G' i j hi0 hi hj0 hj,
      vfStep_howard_value E param K Z P V0 V G i j hi0 hi hj0 hj, hG rfl i, hP', hy]

end Orders3

/-! ## Facts about the instances against unconditional monotonicity -/

section Against

theorem gridK2_strictIncr : StrictIncr 2 gridK2 := by
  intro a b ha hab hb
  have h : a = 0 ∧ b = 1 := by omega
  obtain ⟨rfl, rfl⟩ := h
  decide!

theorem rows2 (i : Int) (hi0 : 0 ≤ i) (hi : i < 2) : i = 0 ∨ i = 1 := by omega

theorem convex_inputs : GridSearchInputs convexE convexParam gridK2 fiveZ := by
  refine ⟨rfl, rfl, gridK2_strictIncr, ?_, gridMaxModel_lowestArgmax convexPow⟩
  intro i hi0 hi
  rcases rows2 i hi0 hi with rfl | rfl <;> decide!

theorem fall_inputs : GridSearchInputs fallE fallParam gridK2 fiveZ := by
  refine ⟨rfl, rfl, gridK2_strictIncr, ?_, gridMaxModel_lowestArgmax fallPow⟩
  intro i hi0 hi
  rcases rows2 i hi0 hi with rfl | rfl <;> decide!

theorem off_inputs : GridSearchInputs offE offParam gridK2 fiveZ := by
  refine ⟨rfl, rfl, gridK2_strictIncr, ?_, gridMaxModel_lowestArgmax demoPow⟩
  intro i hi0 hi
  rcases rows2 i hi0 hi with rfl | rfl <;> decide!

/-- On the grid `[1, 4]`, `binaryVal2` meets the contract at every resource
level. -/
theorem binaryVal2_spec (r : ℚ) : BinaryValSpec 2 gridK2 r (binaryVal2 r gridK2) := by
  have hK0 : gridK2 0 = 1 := rfl
  have hK1 : gridK2 1 = 4 := rfl
  unfold binaryVal2
  by_cases h0 : r < gridK2 0
  · rw [if_pos h0]
    right
    exact ⟨le_refl 0, by decide, h0, fun m hm0 _ _ => hm0⟩
  · rw [if_neg h0]
    by_cases h1 : r < gridK2 1
    · right
      refine ⟨by decide, by decide, h1, ?_⟩
      intro m hm0 hm1 hm
      by_contra hlt
      have hm' : m = 0 := by omega
      subst hm'
      exact h0 hm
    · left
      refine ⟨by decide, by decide, not_lt.mp h1, ?_⟩
      intro m _ hm1 _
      omega

theorem convex_binaryVal : BinaryValMeetsSpec convexE convexParam gridK2 fiveZ :=
  fun _ _ _ => binaryVal2_spec _

theorem fall_binaryVal : BinaryValMeetsSpec fallE fallParam gridK2 fiveZ :=
  fun _ _ _ => binaryVal2_spec _

theorem convex_resourcesIncr : ResourcesIncr convexE convexParam gridK2 fiveZ 0 := by
  intro i hi0 hi
  have h : i = 1 := by
    have : convexParam.nk = 2 := rfl
    omega
  subst h
  decide!

theorem grid2_pairs (i k' k : Int) (hi0 : 1 ≤ i) (hi : i < 2) (hk0 : 0 ≤ k') (hkk : k' < k)
    (hk : k < 2) : i = 1 ∧ k' = 0 ∧ k = 1 := by omega

theorem fall_concaveOnGrid : ConcaveOnGrid fallE fallParam gridK2 fiveZ 0 := by
  intro i k' k hi0 hi hk0 hkk hk _
  obtain ⟨rfl, rfl, rfl⟩ := grid2_pairs i k' k hi0 hi hk0 hkk hk
  decide!

theorem off_resourcesIncr : ResourcesIncr offE offParam gridK2 fiveZ 0 := by
  intro i hi0 hi
  have h : i = 1 := by
    have : offParam.nk = 2 := rfl
    omega
  subst h
  decide!

theorem off_concaveOnGrid : ConcaveOnGrid offE offParam gridK2 fiveZ 0 := by
  intro i k' k hi0 hi hk0 hkk hk _
  obtain ⟨rfl, rfl, rfl⟩ := grid2_pairs i k' k hi0 hi hk0 hkk hk
  decide!

end Against

/-! ## Facts about the worked instance -/

section Demo

theorem demoK_strictIncr : StrictIncr 3 demoK := by
  intro a b ha hab hb
  have h : (a = 0 ∧ b = 1) ∨ (a = 0 ∧ b = 2) ∨ (a = 1 ∧ b = 2) := by omega
  rcases h with ⟨rfl, rfl⟩ | ⟨rfl, rfl⟩ | ⟨rfl, rfl⟩ <;> decide!

theorem demo_cells (i j : Int) (hi0 : 0 ≤ i) (hi : i < demoParam.nk) (hj0 : 0 ≤ j)
    (hj : j < demoParam.nz) : (i = 0 ∨ i = 1 ∨ i = 2) ∧ j = 0 := by
  have h1 : demoParam.nk = 3 := rfl
  have h2 : demoParam.nz = 1 := rfl
  omega

theorem demo_resources (i j : Int) (hi0 : 0 ≤ i) (hi : i < demoParam.nk) (hj0 : 0 ≤ j)
    (hj : j < demoParam.nz) : demoK 0 ≤ ydepK demoE demoParam demoK demoZ i j := by
  obtain ⟨h | h | h, rfl⟩ := demo_cells i j hi0 hi hj0 hj <;> subst h <;> decide!

theorem demo_binaryVal (i j : Int) (hi0 : 0 ≤ i) (hi : i < demoParam.nk) (hj0 : 0 ≤ j)
    (hj : j < demoParam.nz) :
    BinaryValSpec demoParam.nk demoK (ydepK demoE demoParam demoK demoZ i j)
      (demoE.binaryVal (ydepK demoE demoParam demoK demoZ i j) demoK) := by
  have hnk : demoParam.nk = 3 := rfl
  obtain ⟨h | h | h, rfl⟩ := demo_cells i j hi0 hi hj0 hj <;> subst h
  · right
    have hb : demoE.binaryVal (ydepK demoE demoParam demoK demoZ 0 0) demoK = 1 := by decide!
    rw [hb, hnk]
    refine ⟨by decide, by decide, by decide!, ?_⟩
    intro m hm0 hm1 hm
    by_contra hlt
    have : m = 0 := by omega
    subst this
    revert hm
    decide!
  · right
    have hb : demoE.binaryVal (ydepK demoE demoParam demoK demoZ 1 0) demoK = 2 := by decide!
    rw [hb, hnk]
    refine ⟨by decide, by decide, by decide!, ?_⟩
    intro m hm0 hm1 hm
    by_contra hlt
    have : m = 0 ∨ m = 1 := by omega
    rcases this with rfl | rfl <;> revert hm <;> decide!
  · left
    have hb : demoE.binaryVal (ydepK demoE demoParam demoK demoZ 2 0) demoK = 2 := by decide!
    rw [hb, hnk]
    refine ⟨by decide, by decide, by decide!, ?_⟩
    intro m hm0 hm1 _
    omega

theorem demo_feasible (i j : Int) (hi0 : 0 ≤ i) (hi : i < demoParam.nk) (hj0 : 0 ≤ j)
    (hj : j < demoParam.nz) :
    0 ≤ feasibleHi demoE demoK (ydepK demoE demoParam demoK demoZ i j) :=
  (feasibleHi_largest demoE demoK demoParam.nk _ demoK_strictIncr
    (demo_resources i j hi0 hi hj0 hj) (demo_binaryVal i j hi0 hi hj0 hj)).1

theorem demo_resourcesIncr : ResourcesIncr demoE demoParam demoK demoZ 0 := by
  intro i hi0 hi
  have hnk : demoParam.nk = 3 := rfl
  have h : i = 1 ∨ i = 2 := by omega
  rcases h with rfl | rfl <;> decide!

theorem demo_concaveOnGrid : ConcaveOnGrid demoE demoParam demoK demoZ 0 := by
  intro i k' k hi0 hi hk0 hkk hk hfeas
  have hnk : demoParam.nk = 3 := rfl
  have hi' : i = 1 ∨ i = 2 := by omega
  have hk' : (k' = 0 ∧ k = 1) ∨ (k' = 0 ∧ k = 2) ∨ (k' = 1 ∧ k = 2) := by omega
  rcases hi' with rfl | rfl <;> rcases hk' with ⟨rfl, rfl⟩ | ⟨rfl, rfl⟩ | ⟨rfl, rfl⟩ <;>
    revert hfeas <;> decide!

theorem pickMax_inRange : InRange (selectedMax demoEpick demoParam) := by
  intro klo nksub y eta beta K Exp hpos _
  show klo ≤ (pickMax klo nksub y eta beta K Exp).2
    ∧ (pickMax klo nksub y eta beta K Exp).2 < klo + nksub
  unfold pickMax
  split_ifs <;> constructor <;> simp only [] <;> omega

theorem demo_lowestArgmax : LowestArgmax demoE.pow (selectedMax demoE demoParam) :=
  gridMaxModel_lowestArgmax demoPow

end Demo

/-! ## Claims -/

section Claims

variable {R : Type} [LinearOrderedField R]

/-- C2. For a strictly increasing grid and a resource level `r ≥ K[0]`, with
`binaryVal` returning the largest index not above `r` or the smallest index
above `r`, the bound `khi` of lines 86-87 (the `binaryVal` result,
decremented when `K[khi] > r`) is the largest index `h` of `[0, nk-1]` with
`K[h] ≤ r`. -/
theorem C2_feasibleHi_largest (E : Extern R) (nk : Int) (K : VectorXR R) (r : R)
    (hK : StrictIncr nk K) (hr : K 0 ≤ r)
    (hb : BinaryValSpec nk K r (E.binaryVal r K)) :
    0 ≤ feasibleHi E K r ∧ feasibleHi E K r < nk ∧ K (feasibleHi E K r) ≤ r ∧
      ∀ m : Int, 0 ≤ m → m < nk → K m ≤ r → m ≤ feasibleHi E K r :=
  feasibleHi_largest E K nk r hK hr hb

/-- C1. Feasibility: after a maximisation sweep (`howard = false`, selector
`'g'` or `'b'`) every cell `(i,j)` of the grid holds a policy index with
`0 ≤ G(i,j)` and `K[G(i,j)] ≤ K[i]^alpha*Z[j] + (1-delta)*K[i]`, provided `K`
is strictly increasing, every resource level is at least `K[0]`, `binaryVal`
meets its contract and the maximiser answers inside the range it is given. -/
theorem C1_feasibility (E : Extern R) (param : parameters R) (K Z : VectorXR R)
    (P V0 V : MatrixXR R) (G : MatrixXi)
    (hsel : param.maxtype = 'g' ∨ param.maxtype = 'b')
    (hK : StrictIncr param.nk K)
    (hy : ∀ i j : Int, 0 ≤ i → i < param.nk → 0 ≤ j → j < param.nz →
      K 0 ≤ ydepK E param K Z i j)
    (hbv : ∀ i j : Int, 0 ≤ i → i < param.nk → 0 ≤ j → j < param.nz →
      BinaryValSpec param.nk K (ydepK E param K Z i j)
        (E.binaryVal (ydepK E param K Z i j) K))
    (hmax : InRange (selectedMax E param))
    (i j : Int) (hi0 : 0 ≤ i) (hi : i < param.nk) (hj0 : 0 ≤ j) (hj : j < param.nz) :
    0 ≤ (vfStep E param false K Z P V0 V G).2 i j ∧
      K ((vfStep E param false K Z P V0 V G).2 i j)
        ≤ E.pow (K i) param.alpha * Z j + (1 - param.delta) * K i := by
  have hcell := vfStep_max_apply E param K Z P V0 hsel V G i j hi0 hi hj0 hj
  have hG := congrArg Prod.snd hcell
  simp only [] at hG
  obtain ⟨h0, h1, h2, _⟩ := feasibleHi_largest E K param.nk _ hK (hy i j hi0 hi hj0 hj)
    (hbv i j hi0 hi hj0 hj)
  have hr := maxCall_range E param K Z P V0 hmax (vfStep E param false K Z P V0 V G).2 i j h0
  have hlo := monotoneLo_bounds (vfStep E param false K Z P V0 V G).2 i j _ h0
  rw [← hG] at hr
  have hg0 : 0 ≤ (vfStep E param false K Z P V0 V G).2 i j := le_trans hlo.1 hr.1
  refine ⟨hg0, ?_⟩
  have hle := StrictIncr.le_of_le hK hg0 hr.2 h1
  exact le_trans hle h2

/-- C2, at the worked instance: for the resource level `ydepK(1,0) = 5` on
the grid `[1, 4, 9]` the search returns index 2 (`K[2] = 9 > 5`), and the
bound is index 1. -/
theorem C2_feasibleHi_largest_witness :
    ydepK demoE demoParam demoK demoZ 1 0 = 5 ∧
      demoE.binaryVal (ydepK demoE demoParam demoK demoZ 1 0) demoK = 2 ∧
      (0 ≤ feasibleHi demoE demoK (ydepK demoE demoParam demoK demoZ 1 0) ∧
        feasibleHi demoE demoK (ydepK demoE demoParam demoK demoZ 1 0) < demoParam.nk ∧
        demoK (feasibleHi demoE demoK (ydepK demoE demoParam demoK demoZ 1 0))
          ≤ ydepK demoE demoParam demoK demoZ 1 0 ∧
        ∀ m : Int, 0 ≤ m → m < demoParam.nk →
          demoK m ≤ ydepK demoE demoParam demoK demoZ 1 0 →
          m ≤ feasibleHi demoE demoK (ydepK demoE demoParam demoK demoZ 1 0)) :=
  ⟨by decide!, by decide!,
    C2_feasibleHi_largest demoE demoParam.nk demoK (ydepK demoE demoParam demoK demoZ 1 0)
      demoK_strictIncr (by decide!)
      (demo_binaryVal 1 0 (by decide) (by decide) (by decide) (by decide))⟩

/-- C1, at the worked instance: the policy index of cell `(2,0)` is feasible. -/
theorem C1_feasibility_witness :
    0 ≤ (vfStep demoE demoParam false demoK demoZ demoP demoV0 demoV demoG).2 2 0 ∧
      demoK ((vfStep demoE demoParam false demoK demoZ demoP demoV0 demoV demoG).2 2 0)
        ≤ demoE.pow (demoK 2) demoParam.alpha * demoZ 0 + (1 - demoParam.delta) * demoK 2 :=
  C1_feasibility demoE demoParam demoK demoZ demoP demoV0 demoV demoG (Or.inl rfl)
    demoK_strictIncr demo_resources demo_binaryVal demo_lowestArgmax.returnsValueAt.inRange
    2 0 (by decide) (by decide) (by decide) (by decide)

/-- C3. Policy evaluation: with `howard = true`, every cell of the grid gets
`V(i,j) = (ydepK(i,j) - K[G(i,j)])^(1-eta)/(1-eta)
  + beta * sum over l in [0,nz) of V0(G(i,j), l) * P(j, l)`,
with `G` the policy that entered the call and
`ydepK(i,j) = K[i]^alpha*Z[j] + (1-delta)*K[i]`; no search is made: the result
is the same whatever `binaryVal`, `gridMax` and `binaryMax` are. -/
theorem C3_howard_value (E : Extern R) (param : parameters R) (K Z : VectorXR R)
    (P V0 V : MatrixXR R) (G : MatrixXi) (i j : Int)
    (hi0 : 0 ≤ i) (hi : i < param.nk) (hj0 : 0 ≤ j) (hj : j < param.nz) :
    (vfStep E param true K Z P V0 V G).1 i j =
        E.pow (E.pow (K i) param.alpha * Z j + (1 - param.delta) * K i - K (G i j))
            (1 - param.eta) / (1 - param.eta)
          + param.beta * ∑ l in Finset.range param.nz.toNat, V0 (G i j) (l : Int) * P j (l : Int)
      ∧ ∀ (bv : R → VectorXR R → Int) (gm bm : Maximizer R),
          vfStep ⟨E.pow, bv, gm, bm⟩ param true K Z P V0 V G
            = vfStep E param true K Z P V0 V G := by
  constructor
  · have h := congrArg Prod.fst (vfStep_apply E param true K Z P V0 V G i j)
    simp only [] at h
    rw [h, if_pos ⟨hi0, hi, hj0, hj⟩, cellVal_howard, ← rowDot_eq_sum]
    simp [policySeen, ydepK, colwiseAdd, outer]
  · intro bv gm bm
    rfl

/-- C3, at the worked instance, cell `(1,0)` with the stored policy `G = 0`. -/
theorem C3_howard_value_witness :
    (vfStep demoE demoParam true demoK demoZ demoP demoV0 demoV demoG).1 1 0 =
        demoE.pow (demoE.pow (demoK 1) demoParam.alpha * demoZ 0
              + (1 - demoParam.delta) * demoK 1 - demoK (demoG 1 0))
            (1 - demoParam.eta) / (1 - demoParam.eta)
          + demoParam.beta
            * ∑ l in Finset.range demoParam.nz.toNat, demoV0 (demoG 1 0) (l : Int) * demoP 0 (l : Int)
      ∧ ∀ (bv : ℚ → VectorXR ℚ → Int) (gm bm : Maximizer ℚ),
          vfStep ⟨demoE.pow, bv, gm, bm⟩ demoParam true demoK demoZ demoP demoV0 demoV demoG
            = vfStep demoE demoParam true demoK demoZ demoP demoV0 demoV demoG :=
  C3_howard_value demoE demoParam demoK demoZ demoP demoV0 demoV demoG 1 0
    (by decide) (by decide) (by decide) (by decide)

/-- C4. Policy-evaluation frame: with `howard = true`, for every input, the
policy matrix `G` after `vfStep` equals `G` before the call in every cell. -/
theorem C4_howard_frame (E : Extern R) (param : parameters R) (K Z : VectorXR R)
    (P V0 V : MatrixXR R) (G : MatrixXi) (a b : Int) :
    (vfStep E param true K Z P V0 V G).2 a b = G a b := by
  rw [vfStep_howard_policy]

/-- C5. Resources: the matrix computed at lines 72-73 has
`ydepK(i,j) = K[i]^alpha * Z[j] + (1 - delta) * K[i]` in every cell, and it is
the same for any other values of the remaining parameters (`nk`, `nz`, `eta`,
`beta`, `maxtype`) and of the external routines other than `pow`; `V0`, `V`,
`G`, `P` and `howard` are not among its arguments. -/
theorem C5_resources (E : Extern R) (param : parameters R) (K Z : VectorXR R) (i j : Int) :
    ydepK E param K Z i j = E.pow (K i) param.alpha * Z j + (1 - param.delta) * K i
      ∧ (∀ (nk nz : Int) (eta beta : R) (maxtype : Char),
          ydepK E ⟨nk, nz, eta, beta, param.alpha, param.delta, maxtype⟩ K Z = ydepK E param K Z)
      ∧ ∀ (bv : R → VectorXR R → Int) (gm bm : Maximizer R),
          ydepK ⟨E.pow, bv, gm, bm⟩ param K Z = ydepK E param K Z :=
  ⟨rfl, fun _ _ _ _ _ => rfl, fun _ _ _ => rfl⟩

/-- C6. Continuation values: in maximisation mode with selector `'g'` or
`'b'`, at every cell `(i,j)` and for any `V`, `G` the loop body reaches the
cell with, `khi` and `klo` being computed as at lines 85-92 and
`nksub = khi-klo+1 ≥ 0`, the pair the loop body stores in `V(i,j)`, `G(i,j)`
is the answer of the selected maximiser (`gridMax` for `'g'`, `binaryMax` for
`'b'`) on the vector `Exp` of line 101, which has exactly `nksub` entries with
`Exp[m] = sum over l in [0,nz) of V0(klo+m, l) * P(j, l)` for every `m` in
`[0, nksub)`. -/
theorem C6_continuation (E : Extern R) (param : parameters R) (K Z : VectorXR R)
    (P V0 V : MatrixXR R) (G : MatrixXi) (i j khi klo nksub : Int) (Exp : List R)
    (hsel : param.maxtype = 'g' ∨ param.maxtype = 'b')
    (hkhi : khi = feasibleHi E K (ydepK E param K Z i j))
    (hklo : klo = monotoneLo G i j khi) (hnksub : nksub = khi - klo + 1) (hn : 0 ≤ nksub)
    (hExp : Exp = blockTimesRow param.nz V0 P klo nksub j) :
    ((vfCell E param false K Z P V0 i j (V, G)).1 i j,
        (vfCell E param false K Z P V0 i j (V, G)).2 i j)
        = (if param.maxtype = 'g' then E.gridMax else E.binaryMax)
            klo nksub (ydepK E param K Z i j) param.eta param.beta K Exp
      ∧ (Exp.length : Int) = nksub
      ∧ ∀ m : Nat, (m : Int) < nksub →
          Exp[m]? =
            some (∑ l in Finset.range param.nz.toNat, V0 (klo + (m : Int)) (l : Int) * P j (l : Int)) := by
  subst hkhi hklo hnksub hExp
  refine ⟨?_, ?_, ?_⟩
  · unfold vfCell
    rcases hsel with h | h
    · simp [h, setCoeff]
    · have hg : param.maxtype ≠ 'g' := by rw [h]; decide
      simp [h, setCoeff]
  · rw [length_blockTimesRow]
    omega
  · intro m hm
    rw [getElem?_blockTimesRow _ _ _ _ _ _ _ hm, rowDot_eq_sum]

/-- C6, at the worked instance (selector `'g'`): cell `(1,0)` has the range
`[0, 1]`; the loop body stores the answer of `gridMax` on the vector `Exp` of
two entries, `Exp[0] = V0(0,0)*P(0,0) = 0` and `Exp[1] = V0(1,0)*P(0,0) = 1`. -/
theorem C6_continuation_witness :
    (((vfCell demoE demoParam false demoK demoZ demoP demoV0 1 0 (demoV, demoG)).1 1 0,
        (vfCell demoE demoParam false demoK demoZ demoP demoV0 1 0 (demoV, demoG)).2 1 0)
        = (if demoParam.maxtype = 'g' then demoE.gridMax else demoE.binaryMax)
            0 2 (ydepK demoE demoParam demoK demoZ 1 0) demoParam.eta demoParam.beta demoK
            [0, 1]
      ∧ (([0, 1] : List ℚ).length : Int) = 2
      ∧ ∀ m : Nat, (m : Int) < 2 →
          ([0, 1] : List ℚ)[m]? =
            some (∑ l in Finset.range demoParam.nz.toNat,
              demoV0 (0 + (m : Int)) (l : Int) * demoP 0 (l : Int)))
      ∧ (vfCell demoE demoParam false demoK demoZ demoP demoV0 1 0 (demoV, demoG)).2 1 0 = 1 :=
  ⟨C6_continuation demoE demoParam demoK demoZ demoP demoV0 demoV demoG 1 0 1 0 2 [0, 1]
      (Or.inl rfl) (by decide!) (by decide!) (by decide) (by decide) (by decide!),
    by decide!⟩

/-- C7. Maximiser dispatch: in maximisation mode the loop body at cell
`(i,j)` calls `gridMax` for selector `'g'` and `binaryMax` for selector `'b'`,
with the arguments `(klo, nksub = khi-klo+1, ydepK(i,j), eta, beta, K, Exp)`,
stores the returned pair in `V(i,j)` and `G(i,j)`, and leaves every other
coefficient of `V` and `G` as it was. -/
theorem C7_dispatch (E : Extern R) (param : parameters R) (K Z : VectorXR R)
    (P V0 V : MatrixXR R) (G : MatrixXi) (i j khi klo nksub : Int)
    (hkhi : khi = feasibleHi E K (ydepK E param K Z i j))
    (hklo : klo = monotoneLo G i j khi) (hnksub : nksub = khi - klo + 1) :
    (param.maxtype = 'g' → ∀ a b : Int,
        ((vfCell E param false K Z P V0 i j (V, G)).1 a b,
          (vfCell E param false K Z P V0 i j (V, G)).2 a b) =
          if a = i ∧ b = j then
            E.gridMax klo nksub (ydepK E param K Z i j) param.eta param.beta K
              (blockTimesRow param.nz V0 P klo nksub j)
          else (V a b, G a b))
      ∧ (param.maxtype = 'b' → ∀ a b : Int,
        ((vfCell E param false K Z P V0 i j (V, G)).1 a b,
          (vfCell E param false K Z P V0 i j (V, G)).2 a b) =
          if a = i ∧ b = j then
            E.binaryMax klo nksub (ydepK E param K Z i j) param.eta param.beta K
              (blockTimesRow param.nz V0 P klo nksub j)
          else (V a b, G a b)) := by
  subst hkhi hklo hnksub
  constructor
  · intro h a b
    unfold vfCell
    by_cases hab : a = i ∧ b = j <;> simp [h, setCoeff, hab]
  · intro h a b
    have hg : param.maxtype ≠ 'g' := by rw [h]; decide
    unfold vfCell
    by_cases hab : a = i ∧ b = j <;> simp [h, setCoeff, hab]

/-- C7, at the worked instance (selector `'g'`), at cell `(1,0)` whose range
is `[0, 1]`: what lands in the cell is the answer of `gridMax`. -/
theorem C7_dispatch_witness :
    ((vfCell demoE demoParam false demoK demoZ demoP demoV0 1 0 (demoV, demoG)).1 1 0,
      (vfCell demoE demoParam false demoK demoZ demoP demoV0 1 0 (demoV, demoG)).2 1 0) =
      demoE.gridMax 0 2 (ydepK demoE demoParam demoK demoZ 1 0) demoParam.eta demoParam.beta
        demoK (blockTimesRow demoParam.nz demoV0 demoP 0 2 0) := by
  have h := (C7_dispatch demoE demoParam demoK demoZ demoP demoV0 demoV demoG 1 0 1 0 2
    (by decide!) (by decide!) (by decide)).1 rfl 1 0
  rw [h, if_pos ⟨rfl, rfl⟩]

/-- C9. Policy-evaluation consistency: let a maximisation sweep produce
`(V1, G1)`, with a maximiser that stores, with its chosen index `k`, the value
`u(ydepK - K[k]) + beta*Exp[k-klo]`, every candidate range being non-empty
(`khi ≥ 0`).  Then a policy-evaluation sweep started from `G1` (and any `V`)
gives `V2(i,j) = V1(i,j)` in every cell of the grid; and the single-row
product `V0.row(G1(i,j))*P.row(j)^T` is entry `G1(i,j)-klo` of the block
product of the maximisation branch. -/
theorem C9_howard_consistency (E : Extern R) (param : parameters R) (K Z : VectorXR R)
    (P V0 V V' : MatrixXR R) (G : MatrixXi)
    (hsel : param.maxtype = 'g' ∨ param.maxtype = 'b')
    (hval : ReturnsValueAt E.pow (selectedMax E param))
    (hfeas : ∀ i j : Int, 0 ≤ i → i < param.nk → 0 ≤ j → j < param.nz →
      0 ≤ feasibleHi E K (ydepK E param K Z i j))
    (i j khi klo nksub : Int)
    (hi0 : 0 ≤ i) (hi : i < param.nk) (hj0 : 0 ≤ j) (hj : j < param.nz)
    (hkhi : khi = feasibleHi E K (ydepK E param K Z i j))
    (hklo : klo = monotoneLo (vfStep E param false K Z P V0 V G).2 i j khi)
    (hnksub : nksub = khi - klo + 1) :
    (vfStep E param true K Z P V0 V' (vfStep E param false K Z P V0 V G).2).1 i j
        = (vfStep E param false K Z P V0 V G).1 i j
      ∧ rowDot param.nz (V0 ((vfStep E param false K Z P V0 V G).2 i j)) (P j)
        = (blockTimesRow param.nz V0 P klo nksub j).getD
            ((vfStep E param false K Z P V0 V G).2 i j - klo).toNat 0 := by
  subst hkhi hklo hnksub
  have hcell := vfStep_max_apply E param K Z P V0 hsel V G i j hi0 hi hj0 hj
  have hV := congrArg Prod.fst hcell
  have hG := congrArg Prod.snd hcell
  simp only [] at hV hG
  have hk := hfeas i j hi0 hi hj0 hj
  have hb := monotoneLo_bounds (vfStep E param false K Z P V0 V G).2 i j _ hk
  have hlen := length_blockTimesRow param.nz V0 P
    (monotoneLo (vfStep E param false K Z P V0 V G).2 i j
      (feasibleHi E K (ydepK E param K Z i j)))
    (feasibleHi E K (ydepK E param K Z i j)
      - monotoneLo (vfStep E param false K Z P V0 V G).2 i j
          (feasibleHi E K (ydepK E param K Z i j)) + 1) j
  obtain ⟨h1, h2, h3⟩ := hval
    (monotoneLo (vfStep E param false K Z P V0 V G).2 i j
      (feasibleHi E K (ydepK E param K Z i j)))
    (feasibleHi E K (ydepK E param K Z i j)
      - monotoneLo (vfStep E param false K Z P V0 V G).2 i j
          (feasibleHi E K (ydepK E param K Z i j)) + 1)
    (ydepK E param K Z i j) param.eta param.beta K _ (by omega) (by rw [hlen]; omega)
  have hdot := getD_blockTimesRow param.nz V0 P _ _ j _ h1 h2
  have hmc : maxCall E param K Z P V0 (vfStep E param false K Z P V0 V G).2 i j
      = selectedMax E param
          (monotoneLo (vfStep E param false K Z P V0 V G).2 i j
            (feasibleHi E K (ydepK E param K Z i j)))
          (feasibleHi E K (ydepK E param K Z i j)
            - monotoneLo (vfStep E param false K Z P V0 V G).2 i j
                (feasibleHi E K (ydepK E param K Z i j)) + 1)
          (ydepK E param K Z i j) param.eta param.beta K
          (blockTimesRow param.nz V0 P
            (monotoneLo (vfStep E param false K Z P V0 V G).2 i j
              (feasibleHi E K (ydepK E param K Z i j)))
            (feasibleHi E K (ydepK E param K Z i j)
              - monotoneLo (vfStep E param false K Z P V0 V G).2 i j
                  (feasibleHi E K (ydepK E param K Z i j)) + 1) j) := rfl
  rw [← hmc] at h3 hdot
  rw [← hG] at hdot
  refine ⟨?_, hdot.symm⟩
  have hh := congrArg Prod.fst (vfStep_apply E param true K Z P V0 V'
    (vfStep E param false K Z P V0 V G).2 i j)
  simp only [] at hh
  rw [hh, if_pos ⟨hi0, hi, hj0, hj⟩, cellVal_howard, hV, h3]
  unfold bellmanReturn
  rw [← hG, hdot]
  simp [policySeen]

/-- C9, at the worked instance: cell `(2,0)`, whose tightened range is
`[1, 2]`. -/
theorem C9_howard_consistency_witness :
    (vfStep demoE demoParam true demoK demoZ demoP demoV0 demoV
          (vfStep demoE demoParam false demoK demoZ demoP demoV0 demoV demoG).2).1 2 0
        = (vfStep demoE demoParam false demoK demoZ demoP demoV0 demoV demoG).1 2 0
      ∧ rowDot demoParam.nz
          (demoV0 ((vfStep demoE demoParam false demoK demoZ demoP demoV0 demoV demoG).2 2 0))
          (demoP 0)
        = (blockTimesRow demoParam.nz demoV0 demoP 1 2 0).getD
            ((vfStep demoE demoParam false demoK demoZ demoP demoV0 demoV demoG).2 2 0 - 1).toNat
            0 :=
  C9_howard_consistency demoE demoParam demoK demoZ demoP demoV0 demoV demoV demoG (Or.inl rfl)
    demo_lowestArgmax.returnsValueAt demo_feasible 2 0 2 1 2
    (by decide) (by decide) (by decide) (by decide) (by decide!) (by decide!) (by decide)

/-- C10. Output written fully: when `howard = true`, or `howard = false` with
selector `'g'` or `'b'`, the sweep runs the loop body once on each cell of the
grid (the visiting order has no repetition and contains every cell), the
loop body at `(i,j)` assigns `V(i,j)` and no other coefficient of `V`, and the
resulting `V` in the cells of the grid does not depend on the contents of `V`
before the call. -/
theorem C10_written_fully (E : Extern R) (param : parameters R) (howard : Bool)
    (K Z : VectorXR R) (P V0 : MatrixXR R)
    (hmode : howard = true ∨ param.maxtype = 'g' ∨ param.maxtype = 'b') :
    (∀ (V : MatrixXR R) (G : MatrixXi), vfStep E param howard K Z P V0 V G =
        (sweepCells param).foldl
          (fun s c => vfCell E param howard K Z P V0 (c.1 : Int) (c.2 : Int) s) (V, G))
      ∧ (sweepCells param).Nodup
      ∧ (∀ i j : Nat, (i : Int) < param.nk → (j : Int) < param.nz → (i, j) ∈ sweepCells param)
      ∧ (∀ (i j : Int) (st : MatrixXR R × MatrixXi),
          ∃ v : R, (vfCell E param howard K Z P V0 i j st).1 = setCoeff st.1 i j v)
      ∧ ∀ (V V' : MatrixXR R) (G : MatrixXi) (i j : Int),
          0 ≤ i → i < param.nk → 0 ≤ j → j < param.nz →
          (vfStep E param howard K Z P V0 V G).1 i j
            = (vfStep E param howard K Z P V0 V' G).1 i j := by
  refine ⟨fun V G => vfStep_eq_foldl_cells E param howard K Z P V0 V G, nodup_sweepCells param,
    fun i j hi hj => (mem_sweepCells param i j).mpr ⟨hi, hj⟩, ?_, ?_⟩
  · intro i j st
    unfold vfCell
    rcases hmode with h | h | h
    · subst h
      exact ⟨_, rfl⟩
    · cases howard
      · simp only [h, if_true]
        exact ⟨_, rfl⟩
      · exact ⟨_, rfl⟩
    · have hg : param.maxtype ≠ 'g' := by rw [h]; decide
      cases howard
      · simp only [h, hg, if_true, if_false]
        exact ⟨_, rfl⟩
      · exact ⟨_, rfl⟩
  · intro V V' G i j hi0 hi hj0 hj
    cases howard
    · have hsel : param.maxtype = 'g' ∨ param.maxtype = 'b' := by
        rcases hmode with h | h | h
        · exact absurd h (by decide)
        · exact Or.inl h
        · exact Or.inr h
      have hin : ((i.toNat : Nat) : Int) = i := by omega
      have h := vfStep_max_indep E param K Z P V0 hsel V V' G G i.toNat j (by omega) hj0 hj
      rw [hin] at h
      exact congrArg Prod.fst h
    · have h1 := congrArg Prod.fst (vfStep_apply E param true K Z P V0 V G i j)
      have h2 := congrArg Prod.fst (vfStep_apply E param true K Z P V0 V' G i j)
      simp only [] at h1 h2
      rw [h1, h2, if_pos ⟨hi0, hi, hj0, hj⟩, if_pos ⟨hi0, hi, hj0, hj⟩, cellVal_howard,
        cellVal_howard]
      simp [policySeen]

/-- C10, at the worked instance in maximisation mode: cell `(2,0)` of the
result is the same from `V = 0` and from `V = V0`. -/
theorem C10_written_fully_witness :
    (vfStep demoE demoParam false demoK demoZ demoP demoV0 demoV demoG).1 2 0
      = (vfStep demoE demoParam false demoK demoZ demoP demoV0 demoV0 demoG).1 2 0 :=
  (C10_written_fully demoE demoParam false demoK demoZ demoP demoV0
    (Or.inr (Or.inl rfl))).2.2.2.2 demoV demoV0 demoG 2 0
    (by decide) (by decide) (by decide) (by decide)

/-- C8 as stated fails.  Three maximisation sweeps with `nz = 1`, selector
`'g'`, `K = [1, 4]` strictly increasing, every `ydepK(i,0) ≥ K[0]` and the
exhaustive lowest-index maximiser end with the policy `G = [1, 0]`, so
`G(1,0) < G(0,0)`: one with a convex utility (`eta = -1`; resources rise and
`binaryVal` meets its contract), one with falling resources
(`ydepK = [5, 5/4]`; the utility is concave on the grid and `binaryVal` meets
its contract), one with `binaryVal` off its contract (resources rise and the
utility is concave on the grid).  Hence the listed conditions alone do not
give a non-decreasing policy. -/
theorem C8_counterexample :
    (GridSearchInputs convexE convexParam gridK2 fiveZ
        ∧ BinaryValMeetsSpec convexE convexParam gridK2 fiveZ
        ∧ ResourcesIncr convexE convexParam gridK2 fiveZ 0
        ∧ (vfStep convexE convexParam false gridK2 fiveZ demoP steepV0 demoV demoG).2 0 0 = 1
        ∧ (vfStep convexE convexParam false gridK2 fiveZ demoP steepV0 demoV demoG).2 1 0 = 0)
      ∧ (GridSearchInputs fallE fallParam gridK2 fiveZ
        ∧ BinaryValMeetsSpec fallE fallParam gridK2 fiveZ
        ∧ ConcaveOnGrid fallE fallParam gridK2 fiveZ 0
        ∧ (vfStep fallE fallParam false gridK2 fiveZ demoP steepV0 demoV demoG).2 0 0 = 1
        ∧ (vfStep fallE fallParam false gridK2 fiveZ demoP steepV0 demoV demoG).2 1 0 = 0)
      ∧ (GridSearchInputs offE offParam gridK2 fiveZ
        ∧ ResourcesIncr offE offParam gridK2 fiveZ 0
        ∧ ConcaveOnGrid offE offParam gridK2 fiveZ 0
        ∧ (vfStep offE offParam false gridK2 fiveZ demoP steepV0 demoV demoG).2 0 0 = 1
        ∧ (vfStep offE offParam false gridK2 fiveZ demoP steepV0 demoV demoG).2 1 0 = 0)
      ∧ ¬ (∀ (E : Extern ℚ) (param : parameters ℚ) (K Z : VectorXR ℚ) (P V0 V : MatrixXR ℚ)
            (G : MatrixXi), GridSearchInputs E param K Z →
            ∀ i : Int, 1 ≤ i → i < param.nk →
              (vfStep E param false K Z P V0 V G).2 i 0
                ≥ (vfStep E param false K Z P V0 V G).2 (i - 1) 0) := by
  have hA0 : (vfStep convexE convexParam false gridK2 fiveZ demoP steepV0 demoV demoG).2 0 0 = 1 := by
    decide!
  have hA1 : (vfStep convexE convexParam false gridK2 fiveZ demoP steepV0 demoV demoG).2 1 0 = 0 := by
    decide!
  refine ⟨⟨convex_inputs, convex_binaryVal, convex_resourcesIncr, hA0, hA1⟩,
    ⟨fall_inputs, fall_binaryVal, fall_concaveOnGrid, by decide!, by decide!⟩,
    ⟨off_inputs, off_resourcesIncr, off_concaveOnGrid, by decide!, by decide!⟩, ?_⟩
  intro hall
  have h := hall convexE convexParam gridK2 fiveZ demoP steepV0 demoV demoG convex_inputs 1
    (by decide) (by decide)
  have e : ((1 : Int) - 1) = 0 := by decide
  rw [e, hA0, hA1] at h
  exact absurd h (by decide)

/-- C8, amended.  Monotone policy: for `nz = 1`, after a maximisation sweep
the policy index is non-decreasing in the capital index,
`G(i,0) ≥ G(i-1,0)` for every `i` in `[1,nk)`, on inputs with `K` strictly
increasing, every `ydepK(i,0) ≥ K[0]`, `binaryVal` meeting its contract, a
maximiser returning the lowest-index maximiser of
`u(ydepK - K[k]) + beta*Exp[k-klo]` over its range, resources that do not fall
as capital rises, and a utility that is concave on the grid. -/
theorem C8_monotone_policy (E : Extern R) (param : parameters R) (K Z : VectorXR R)
    (P V0 V : MatrixXR R) (G : MatrixXi)
    (hnz : param.nz = 1)
    (hsel : param.maxtype = 'g' ∨ param.maxtype = 'b')
    (hK : StrictIncr param.nk K)
    (hy : ∀ i : Int, 0 ≤ i → i < param.nk → K 0 ≤ ydepK E param K Z i 0)
    (hbv : ∀ i : Int, 0 ≤ i → i < param.nk →
      BinaryValSpec param.nk K (ydepK E param K Z i 0) (E.binaryVal (ydepK E param K Z i 0) K))
    (hlow : LowestArgmax E.pow (selectedMax E param))
    (hres : ResourcesIncr E param K Z 0)
    (hconc : ConcaveOnGrid E param K Z 0)
    (i : Int) (hi0 : 1 ≤ i) (hi : i < param.nk) :
    (vfStep E param false K Z P V0 V G).2 i 0 ≥ (vfStep E param false K Z P V0 V G).2 (i - 1) 0 :=
  vfStep_policy_mono E param K Z P V0 0 (le_refl 0) (by omega) hsel hK hres hconc hlow
    (fun a ha0 ha => feasibleHi_largest E K param.nk _ hK (hy a ha0 ha) (hbv a ha0 ha))
    V G i hi0 hi

/-- C8 amended, at the worked instance, from row 1 to row 2 (the sweep gives the
policy `[0, 1, 1]`). -/
theorem C8_monotone_policy_witness :
    (vfStep demoE demoParam false demoK demoZ demoP demoV0 demoV demoG).2 2 0
        ≥ (vfStep demoE demoParam false demoK demoZ demoP demoV0 demoV demoG).2 (2 - 1) 0
      ∧ (vfStep demoE demoParam false demoK demoZ demoP demoV0 demoV demoG).2 0 0 = 0
      ∧ (vfStep demoE demoParam false demoK demoZ demoP demoV0 demoV demoG).2 1 0 = 1
      ∧ (vfStep demoE demoParam false demoK demoZ demoP demoV0 demoV demoG).2 2 0 = 1 :=
  ⟨C8_monotone_policy demoE demoParam demoK demoZ demoP demoV0 demoV demoG rfl (Or.inl rfl)
      demoK_strictIncr
      (fun i h0 h1 => demo_resources i 0 h0 h1 (by decide) (by decide))
      (fun i h0 h1 => demo_binaryVal i 0 h0 h1 (by decide) (by decide))
      demo_lowestArgmax demo_resourcesIncr demo_concaveOnGrid 2 (by decide) (by decide),
    by decide!, by decide!, by decide!⟩

/-- C17. Unrecognised selector: with `howard = false` and a selector other
than `'g'` and `'b'`, the loop body is run on every cell (the model is total:
no error can be raised), it changes nothing, and `vfStep` returns `V` and `G`
exactly as they were before the call. -/
theorem C17_unrecognised_noop (E : Extern R) (param : parameters R) (K Z : VectorXR R)
    (P V0 V : MatrixXR R) (G : MatrixXi)
    (hg : param.maxtype ≠ 'g') (hb : param.maxtype ≠ 'b') :
    vfStep E param false K Z P V0 V G = (V, G)
      ∧ (∀ (i j : Int) (st : MatrixXR R × MatrixXi),
          vfCell E param false K Z P V0 i j st = st)
      ∧ vfStep E param false K Z P V0 V G =
          (sweepCells param).foldl
            (fun s c => vfCell E param false K Z P V0 (c.1 : Int) (c.2 : Int) s) (V, G) := by
  have hcell : ∀ (i j : Int) (st : MatrixXR R × MatrixXi),
      vfCell E param false K Z P V0 i j st = st := by
    intro i j st
    unfold vfCell
    simp [hg, hb]
  refine ⟨?_, hcell, vfStep_eq_foldl_cells E param false K Z P V0 V G⟩
  rw [vfStep_eq_foldl_cells]
  generalize sweepCells param = l
  induction l with
  | nil => rfl
  | cons c l ih => rw [List.foldl_cons, hcell, ih]

/-- C17, at the worked instance with selector `'x'`. -/
theorem C17_unrecognised_noop_witness :
    vfStep demoE demoParamX false demoK demoZ demoP demoV0 demoV demoG7 = (demoV, demoG7) :=
  (C17_unrecognised_noop demoE demoParamX demoK demoZ demoP demoV0 demoV demoG7
    (by decide) (by decide)).1

/-- C18. A maximisation sweep ignores the incoming policy: with
`howard = false` and selector `'g'` or `'b'`, two runs on the same `param`,
`K`, `Z`, `P`, `V0` that start from different `G` and `V` leave the same `V`
and the same `G` in every cell of the grid; what a cell holds is the answer of
the maximiser call made there, whose only policy entry, `G(i-1,j)` for
`i > 0`, is the one the sweep itself wrote. -/
theorem C18_ignores_incoming_policy (E : Extern R) (param : parameters R) (K Z : VectorXR R)
    (P V0 V V' : MatrixXR R) (G G' : MatrixXi)
    (hsel : param.maxtype = 'g' ∨ param.maxtype = 'b')
    (i j : Int) (hi0 : 0 ≤ i) (hi : i < param.nk) (hj0 : 0 ≤ j) (hj : j < param.nz) :
    (vfStep E param false K Z P V0 V G).1 i j = (vfStep E param false K Z P V0 V' G').1 i j
      ∧ (vfStep E param false K Z P V0 V G).2 i j = (vfStep E param false K Z P V0 V' G').2 i j
      ∧ ((vfStep E param false K Z P V0 V G).1 i j, (vfStep E param false K Z P V0 V G).2 i j)
          = maxCall E param K Z P V0 (vfStep E param false K Z P V0 V G).2 i j
      ∧ ∀ H H' : MatrixXi, (0 < i → H (i - 1) j = H' (i - 1) j) →
          maxCall E param K Z P V0 H i j = maxCall E param K Z P V0 H' i j := by
  have hin : ((i.toNat : Nat) : Int) = i := by omega
  have h := vfStep_max_indep E param K Z P V0 hsel V V' G G' i.toNat j (by omega) hj0 hj
  rw [hin] at h
  exact ⟨congrArg Prod.fst h, congrArg Prod.snd h,
    vfStep_max_apply E param K Z P V0 hsel V G i j hi0 hi hj0 hj,
    fun H H' hH => maxCall_congr_pos E param K Z P V0 H H' i j hH⟩

/-- C18, at the worked instance: cell `(2,0)` from `(V, G) = (0, 0)` and from
`(V0, 7)`. -/
theorem C18_ignores_incoming_policy_witness :
    (vfStep demoE demoParam false demoK demoZ demoP demoV0 demoV demoG).1 2 0
        = (vfStep demoE demoParam false demoK demoZ demoP demoV0 demoV0 demoG7).1 2 0
      ∧ (vfStep demoE demoParam false demoK demoZ demoP demoV0 demoV demoG).2 2 0
        = (vfStep demoE demoParam false demoK demoZ demoP demoV0 demoV0 demoG7).2 2 0 :=
  ⟨(C18_ignores_incoming_policy demoE demoParam demoK demoZ demoP demoV0 demoV demoV0 demoG
      demoG7 (Or.inl rfl) 2 0 (by decide) (by decide) (by decide) (by decide)).1,
    (C18_ignores_incoming_policy demoE demoParam demoK demoZ demoP demoV0 demoV demoV0 demoG
      demoG7 (Or.inl rfl) 2 0 (by decide) (by decide) (by decide) (by decide)).2.1⟩

/-- C12. Monotonicity tightening rule: the lower bound of a cell is
`klo = G(i-1,j)` when `i > 0` and `0 < G(i-1,j) < khi`, and `klo = 0` in every
other case; it is a function of `i`, `G(i-1,j)` and `khi` alone (no bound is
carried from one cell to the next), and in a sweep with a recognised selector
the cell `(i,j)` holds the answer of the call made with the `klo` computed
from the `G(i-1,j)` that the sweep wrote, whatever policy entered the call. -/
theorem C12_tightening_rule (E : Extern R) (param : parameters R) (K Z : VectorXR R)
    (P V0 V : MatrixXR R) (G : MatrixXi)
    (hsel : param.maxtype = 'g' ∨ param.maxtype = 'b')
    (i j khi klo nksub : Int)
    (hi0 : 0 ≤ i) (hi : i < param.nk) (hj0 : 0 ≤ j) (hj : j < param.nz)
    (hkhi : khi = feasibleHi E K (ydepK E param K Z i j))
    (hklo : klo = if 0 < i ∧ 0 < (vfStep E param false K Z P V0 V G).2 (i - 1) j
        ∧ (vfStep E param false K Z P V0 V G).2 (i - 1) j < khi
      then (vfStep E param false K Z P V0 V G).2 (i - 1) j else 0)
    (hnksub : nksub = khi - klo + 1) :
    (∀ (H : MatrixXi) (a b h : Int), monotoneLo H a b h =
        if 0 < a ∧ 0 < H (a - 1) b ∧ H (a - 1) b < h then H (a - 1) b else 0)
      ∧ ((vfStep E param false K Z P V0 V G).1 i j, (vfStep E param false K Z P V0 V G).2 i j)
          = selectedMax E param klo nksub (ydepK E param K Z i j) param.eta param.beta K
              (blockTimesRow param.nz V0 P klo nksub j)
      ∧ ∀ (V' : MatrixXR R) (G' : MatrixXi),
          (vfStep E param false K Z P V0 V' G').2 i j = (vfStep E param false K Z P V0 V G).2 i j := by
  have hrule : ∀ (H : MatrixXi) (a b h : Int), monotoneLo H a b h =
      if 0 < a ∧ 0 < H (a - 1) b ∧ H (a - 1) b < h then H (a - 1) b else 0 := by
    intro H a b h
    unfold monotoneLo
    simp only []
    split_ifs with h1 h2 h3 h4 h5
    · rfl
    · exact absurd ⟨h1, h2.1, h2.2⟩ h3
    · exact absurd ⟨h4.2.1, h4.2.2⟩ h2
    · rfl
    · exact absurd h5.1 h1
    · rfl
  refine ⟨hrule, ?_, ?_⟩
  · rw [vfStep_max_apply E param K Z P V0 hsel V G i j hi0 hi hj0 hj]
    have hk : klo = monotoneLo (vfStep E param false K Z P V0 V G).2 i j khi := by
      rw [hklo, hrule]
    subst hkhi
    rw [hnksub, hk]
    rfl
  · intro V' G'
    have hin : ((i.toNat : Nat) : Int) = i := by omega
    have h := vfStep_max_indep E param K Z P V0 hsel V' V G' G i.toNat j (by omega) hj0 hj
    rw [hin] at h
    exact congrArg Prod.snd h

/-- C12, at the worked instance: at cell `(2,0)` the sweep wrote
`G(1,0) = 1` and `khi = 2`, so `klo = 1`; at cell `(1,0)` it wrote
`G(0,0) = 0`, so `klo = 0`. -/
theorem C12_tightening_rule_witness :
    ((vfStep demoE demoParam false demoK demoZ demoP demoV0 demoV demoG7).1 2 0,
        (vfStep demoE demoParam false demoK demoZ demoP demoV0 demoV demoG7).2 2 0)
      = selectedMax demoE demoParam 1 2 (ydepK demoE demoParam demoK demoZ 2 0) demoParam.eta
          demoParam.beta demoK (blockTimesRow demoParam.nz demoV0 demoP 1 2 0)
    ∧ ((vfStep demoE demoParam false demoK demoZ demoP demoV0 demoV demoG7).1 1 0,
        (vfStep demoE demoParam false demoK demoZ demoP demoV0 demoV demoG7).2 1 0)
      = selectedMax demoE demoParam 0 2 (ydepK demoE demoParam demoK demoZ 1 0) demoParam.eta
          demoParam.beta demoK (blockTimesRow demoParam.nz demoV0 demoP 0 2 0) :=
  ⟨(C12_tightening_rule demoE demoParam demoK demoZ demoP demoV0 demoV demoG7 (Or.inl rfl)
      2 0 2 1 2 (by decide) (by decide) (by decide) (by decide) (by decide!) (by decide!)
      (by decide)).2.1,
    (C12_tightening_rule demoE demoParam demoK demoZ demoP demoV0 demoV demoG7 (Or.inl rfl)
      1 0 1 0 2 (by decide) (by decide) (by decide) (by decide) (by decide!) (by decide!)
      (by decide)).2.1⟩

/-- C15. Violated feasibility precondition: for a non-decreasing grid and a
cell with `ydepK(i,j) < K[0]`, whatever index `b` of `[0,nk-1]` `binaryVal`
returns, the decrement fires and `khi = b-1`; `khi` is `-1` (and then
`klo = 0`, `nksub = 0` and the block product is empty) or an index with
`K[khi] > ydepK(i,j)`, never an index with `K[khi] ≤ ydepK(i,j)`; and for a
recognised selector the loop body still stores in the cell the answer of the
maximiser call. -/
theorem C15_unguarded_precondition (E : Extern R) (param : parameters R) (K Z : VectorXR R)
    (P V0 V : MatrixXR R) (G : MatrixXi) (i j : Int)
    (hK : NonDecr param.nk K)
    (hlt : ydepK E param K Z i j < K 0)
    (hb0 : 0 ≤ E.binaryVal (ydepK E param K Z i j) K)
    (hb1 : E.binaryVal (ydepK E param K Z i j) K < param.nk) :
    feasibleHi E K (ydepK E param K Z i j) = E.binaryVal (ydepK E param K Z i j) K - 1
      ∧ (feasibleHi E K (ydepK E param K Z i j) = -1
          ∨ (0 ≤ feasibleHi E K (ydepK E param K Z i j)
            ∧ feasibleHi E K (ydepK E param K Z i j) < param.nk
            ∧ ydepK E param K Z i j < K (feasibleHi E K (ydepK E param K Z i j))))
      ∧ ¬ (0 ≤ feasibleHi E K (ydepK E param K Z i j)
            ∧ K (feasibleHi E K (ydepK E param K Z i j)) ≤ ydepK E param K Z i j)
      ∧ (feasibleHi E K (ydepK E param K Z i j) = -1 →
          monotoneLo G i j (feasibleHi E K (ydepK E param K Z i j)) = 0
            ∧ feasibleHi E K (ydepK E param K Z i j)
                - monotoneLo G i j (feasibleHi E K (ydepK E param K Z i j)) + 1 = 0
            ∧ blockTimesRow param.nz V0 P
                (monotoneLo G i j (feasibleHi E K (ydepK E param K Z i j)))
                (feasibleHi E K (ydepK E param K Z i j)
                  - monotoneLo G i j (feasibleHi E K (ydepK E param K Z i j)) + 1) j = [])
      ∧ (param.maxtype = 'g' ∨ param.maxtype = 'b' →
          ((vfCell E param false K Z P V0 i j (V, G)).1 i j,
            (vfCell E param false K Z P V0 i j (V, G)).2 i j)
            = maxCall E param K Z P V0 G i j) := by
  have hgt : K (E.binaryVal (ydepK E param K Z i j) K) > ydepK E param K Z i j :=
    lt_of_lt_of_le hlt (hK 0 _ (le_refl 0) hb0 hb1)
  have hkhi : feasibleHi E K (ydepK E param K Z i j)
      = E.binaryVal (ydepK E param K Z i j) K - 1 := by
    unfold feasibleHi
    simp only [hgt, if_true]
  have hcase : ∀ h : 0 ≤ feasibleHi E K (ydepK E param K Z i j),
      ydepK E param K Z i j < K (feasibleHi E K (ydepK E param K Z i j)) := by
    intro h
    exact lt_of_lt_of_le hlt (hK 0 _ (le_refl 0) h (by omega))
  refine ⟨hkhi, ?_, ?_, ?_, ?_⟩
  · by_cases h : 0 ≤ feasibleHi E K (ydepK E param K Z i j)
    · exact Or.inr ⟨h, by omega, hcase h⟩
    · exact Or.inl (by omega)
  · rintro ⟨h0, h1⟩
    exact absurd h1 (not_le.mpr (hcase h0))
  · intro hm
    rw [hm]
    have hlo : monotoneLo G i j (-1) = 0 := by
      rcases monotoneLo_cases G i j (-1) with h | ⟨_, h1, h2, _⟩
      · exact h
      · omega
    rw [hlo]
    refine ⟨rfl, by norm_num, rfl⟩
  · intro hsel
    exact cellVal_max E param K Z P V0 hsel V G i j

/-- C15, at the worked instance with `Z = [0]`: `ydepK(0,0) = 3/4 < K[0] = 1`,
the search returns index 0 and `khi = -1`. -/
theorem C15_unguarded_precondition_witness :
    ydepK demoE demoParam demoK demoZ0 0 0 = 3 / 4
      ∧ feasibleHi demoE demoK (ydepK demoE demoParam demoK demoZ0 0 0)
          = demoE.binaryVal (ydepK demoE demoParam demoK demoZ0 0 0) demoK - 1
      ∧ feasibleHi demoE demoK (ydepK demoE demoParam demoK demoZ0 0 0) = -1 :=
  ⟨by decide!,
    (C15_unguarded_precondition demoE demoParam demoK demoZ0 demoP demoV0 demoV demoG 0 0
      (fun a b ha hab hb => by
        rcases eq_or_lt_of_le hab with h | h
        · rw [h]
        · exact le_of_lt (demoK_strictIncr a b ha h hb))
      (by decide!) (by decide!) (by decide!)).1,
    by decide!⟩

/-- C16. Candidate range non-empty and in bounds: in maximisation mode, if
`K` is strictly increasing, `ydepK(i,j) ≥ K[0]` and `binaryVal` meets its
contract, then for any integer policy matrix `G` the index returned by
`binaryVal` lies in `[0, nk-1]`, `0 ≤ klo ≤ khi ≤ nk-1`,
`nksub = khi-klo+1 ≥ 1` (and `nksub ≥ 2` whenever `klo` was raised above 0),
the rows `klo .. klo+nksub-1` of the block lie in `[0, nk-1]`, and the block
product has `nksub` entries. -/
theorem C16_range_in_bounds (E : Extern R) (param : parameters R) (K Z : VectorXR R)
    (P V0 : MatrixXR R) (G : MatrixXi) (i j khi klo nksub : Int)
    (hK : StrictIncr param.nk K)
    (hy : K 0 ≤ ydepK E param K Z i j)
    (hbv : BinaryValSpec param.nk K (ydepK E param K Z i j)
      (E.binaryVal (ydepK E param K Z i j) K))
    (hkhi : khi = feasibleHi E K (ydepK E param K Z i j))
    (hklo : klo = monotoneLo G i j khi) (hnksub : nksub = khi - klo + 1) :
    (0 ≤ E.binaryVal (ydepK E param K Z i j) K
        ∧ E.binaryVal (ydepK E param K Z i j) K ≤ param.nk - 1)
      ∧ 0 ≤ klo ∧ klo ≤ khi ∧ khi ≤ param.nk - 1 ∧ 1 ≤ nksub
      ∧ (0 < klo → 2 ≤ nksub)
      ∧ (0 ≤ klo ∧ klo + nksub - 1 ≤ param.nk - 1)
      ∧ ((blockTimesRow param.nz V0 P klo nksub j).length : Int) = nksub := by
  obtain ⟨h0, h1, _, _⟩ := feasibleHi_largest E K param.nk _ hK hy hbv
  rw [← hkhi] at h0 h1
  have hb := monotoneLo_bounds G i j khi h0
  rw [← hklo] at hb
  have hbv' : 0 ≤ E.binaryVal (ydepK E param K Z i j) K
      ∧ E.binaryVal (ydepK E param K Z i j) K < param.nk := by
    rcases hbv with h | h
    · exact ⟨h.1, h.2.1⟩
    · exact ⟨h.1, h.2.1⟩
  refine ⟨⟨hbv'.1, by omega⟩, hb.1, hb.2, by omega, by omega, ?_, ⟨hb.1, by omega⟩, ?_⟩
  · intro hpos
    rcases monotoneLo_cases G i j khi with h | ⟨_, _, h2, h3⟩
    · omega
    · omega
  · rw [length_blockTimesRow]
    omega

/-- C16, at the worked instance: cell `(2,0)` with the policy the sweep
wrote (`G(1,0) = 1`), where `khi = 2`, `klo = 1` and `nksub = 2`. -/
theorem C16_range_in_bounds_witness :
    (0 ≤ demoE.binaryVal (ydepK demoE demoParam demoK demoZ 2 0) demoK
        ∧ demoE.binaryVal (ydepK demoE demoParam demoK demoZ 2 0) demoK ≤ demoParam.nk - 1)
      ∧ (0 : Int) ≤ 1 ∧ (1 : Int) ≤ 2 ∧ 2 ≤ demoParam.nk - 1 ∧ (1 : Int) ≤ 2
      ∧ ((0 : Int) < 1 → (2 : Int) ≤ 2)
      ∧ ((0 : Int) ≤ 1 ∧ (1 : Int) + 2 - 1 ≤ demoParam.nk - 1)
      ∧ ((blockTimesRow demoParam.nz demoV0 demoP 1 2 0).length : Int) = 2 :=
  C16_range_in_bounds demoE demoParam demoK demoZ demoP demoV0
    (vfStep demoE demoParam false demoK demoZ demoP demoV0 demoV demoG).2 2 0 2 1 2
    demoK_strictIncr (demo_resources 2 0 (by decide) (by decide) (by decide) (by decide))
    (demo_binaryVal 2 0 (by decide) (by decide) (by decide) (by decide))
    (by decide!) (by decide!) (by decide)

/-- C19. One-sided monotonicity: in a maximisation sweep whose maximiser
answers inside the range it is given, for a cell `(i,j)` with `i > 0` and
`0 < G(i-1,j) < khi(i,j)` the new policy satisfies
`G(i-1,j) ≤ G(i,j) ≤ khi(i,j)`; when `G(i-1,j) ≥ khi(i,j)` or `G(i-1,j) = 0`
the lower bound is `klo = 0` and, the range `[0, khi(i,j)]` being non-empty,
`0 ≤ G(i,j) ≤ khi(i,j)`. -/
theorem C19_one_sided_monotonicity (E : Extern R) (param : parameters R) (K Z : VectorXR R)
    (P V0 V : MatrixXR R) (G : MatrixXi)
    (hsel : param.maxtype = 'g' ∨ param.maxtype = 'b')
    (hmax : InRange (selectedMax E param))
    (i j : Int) (hi0 : 1 ≤ i) (hi : i < param.nk) (hj0 : 0 ≤ j) (hj : j < param.nz) :
    (0 < (vfStep E param false K Z P V0 V G).2 (i - 1) j
        ∧ (vfStep E param false K Z P V0 V G).2 (i - 1) j
            < feasibleHi E K (ydepK E param K Z i j) →
        (vfStep E param false K Z P V0 V G).2 (i - 1) j
            ≤ (vfStep E param false K Z P V0 V G).2 i j
          ∧ (vfStep E param false K Z P V0 V G).2 i j
            ≤ feasibleHi E K (ydepK E param K Z i j))
      ∧ (feasibleHi E K (ydepK E param K Z i j) ≤ (vfStep E param false K Z P V0 V G).2 (i - 1) j
          ∨ (vfStep E param false K Z P V0 V G).2 (i - 1) j = 0 →
        monotoneLo (vfStep E param false K Z P V0 V G).2 i j
            (feasibleHi E K (ydepK E param K Z i j)) = 0
          ∧ (0 ≤ feasibleHi E K (ydepK E param K Z i j) →
              0 ≤ (vfStep E param false K Z P V0 V G).2 i j
                ∧ (vfStep E param false K Z P V0 V G).2 i j
                  ≤ feasibleHi E K (ydepK E param K Z i j))) := by
  have hG := congrArg Prod.snd
    (vfStep_max_apply E param K Z P V0 hsel V G i j (by omega) hi hj0 hj)
  simp only [] at hG
  have hcases := monotoneLo_cases (vfStep E param false K Z P V0 V G).2 i j
    (feasibleHi E K (ydepK E param K Z i j))
  constructor
  · rintro ⟨h0, h1⟩
    have hr := maxCall_range E param K Z P V0 hmax (vfStep E param false K Z P V0 V G).2 i j
      (by omega)
    rw [← hG] at hr
    have hlo : monotoneLo (vfStep E param false K Z P V0 V G).2 i j
        (feasibleHi E K (ydepK E param K Z i j))
        = (vfStep E param false K Z P V0 V G).2 (i - 1) j := by
      unfold monotoneLo
      have hi' : i > 0 := by omega
      simp only [hi', if_true]
      rw [if_pos ⟨h0, h1⟩]
    rw [hlo] at hr
    exact hr
  · intro hc
    have hlo : monotoneLo (vfStep E param false K Z P V0 V G).2 i j
        (feasibleHi E K (ydepK E param K Z i j)) = 0 := by
      rcases hcases with h | ⟨_, h1, h2, _⟩
      · exact h
      · rcases hc with hc | hc <;> omega
    refine ⟨hlo, ?_⟩
    intro hk
    have hr := maxCall_range E param K Z P V0 hmax (vfStep E param false K Z P V0 V G).2 i j hk
    rw [← hG, hlo] at hr
    exact hr

/-- C19, at two instances.  With the exhaustive maximiser, cell `(2,0)` has
`0 < G(1,0) = 1 < khi = 2` and `G(2,0) = 1`.  With a routine that only answers
inside its range and `Z = [1/2]`, cell `(2,0)` has `G(1,0) = 1 = khi`, the
range is `[0, 1]` and `G(2,0) = 0 < G(1,0)`. -/
theorem C19_one_sided_monotonicity_witness :
    ((vfStep demoE demoParam false demoK demoZ demoP demoV0 demoV demoG).2 (2 - 1) 0
        ≤ (vfStep demoE demoParam false demoK demoZ demoP demoV0 demoV demoG).2 2 0
      ∧ (vfStep demoE demoParam false demoK demoZ demoP demoV0 demoV demoG).2 2 0
        ≤ feasibleHi demoE demoK (ydepK demoE demoParam demoK demoZ 2 0))
    ∧ ((0 ≤ (vfStep demoEpick demoParam false demoK demoZhalf demoP demoV0 demoV demoG).2 2 0
        ∧ (vfStep demoEpick demoParam false demoK demoZhalf demoP demoV0 demoV demoG).2 2 0
          ≤ feasibleHi demoEpick demoK (ydepK demoEpick demoParam demoK demoZhalf 2 0))
      ∧ (vfStep demoEpick demoParam false demoK demoZhalf demoP demoV0 demoV demoG).2 1 0 = 1
      ∧ (vfStep demoEpick demoParam false demoK demoZhalf demoP demoV0 demoV demoG).2 2 0 = 0) :=
  ⟨(C19_one_sided_monotonicity demoE demoParam demoK demoZ demoP demoV0 demoV demoG (Or.inl rfl)
      demo_lowestArgmax.returnsValueAt.inRange 2 0 (by decide) (by decide) (by decide)
      (by decide)).1 (by decide!),
    ((C19_one_sided_monotonicity demoEpick demoParam demoK demoZhalf demoP demoV0 demoV demoG
      (Or.inl rfl)
      pickMax_inRange
      2 0 (by decide) (by decide) (by decide) (by decide)).2 (by decide!)).2 (by decide!),
    by decide!, by decide!⟩

/-- C13. Tightening does not change the answer under monotonicity: at a cell
`(i,j)` with `i > 0` and `0 < g = G(i-1,j) < khi`, if the lowest-index
maximiser `kstar` of the return
`R(k) = u(ydepK(i,j) - K[k]) + beta * sum_l V0(k,l)*P(j,l)` over the full range
`[0, khi]` satisfies `kstar ≥ g`, then a lowest-index maximiser applied to the
tightened range `[g, khi]` with the sub-block continuation vector (the call
the cell makes) returns `(R(kstar), kstar)`, the pair it returns on the full
range with `klo = 0`. -/
theorem C13_tightening_same_answer (E : Extern R) (param : parameters R) (K Z : VectorXR R)
    (P V0 : MatrixXR R) (G : MatrixXi)
    (hlow : LowestArgmax E.pow (selectedMax E param))
    (i j khi g kstar : Int) (hi : 0 < i)
    (hkhi : khi = feasibleHi E K (ydepK E param K Z i j))
    (hg : g = G (i - 1) j) (hg0 : 0 < g) (hg1 : g < khi)
    (hbest : LowestBest E param K Z P V0 i j kstar) (hk : g ≤ kstar) :
    maxCall E param K Z P V0 G i j =
        selectedMax E param g (khi - g + 1) (ydepK E param K Z i j) param.eta param.beta K
          (blockTimesRow param.nz V0 P g (khi - g + 1) j)
      ∧ selectedMax E param g (khi - g + 1) (ydepK E param K Z i j) param.eta param.beta K
          (blockTimesRow param.nz V0 P g (khi - g + 1) j)
        = (cellReturn E param K Z P V0 i j kstar, kstar)
      ∧ selectedMax E param 0 (khi - 0 + 1) (ydepK E param K Z i j) param.eta param.beta K
          (blockTimesRow param.nz V0 P 0 (khi - 0 + 1) j)
        = (cellReturn E param K Z P V0 i j kstar, kstar)
      ∧ cellReturn E param K Z P V0 i j kstar =
          E.pow (ydepK E param K Z i j - K kstar) (1 - param.eta) / (1 - param.eta)
            + param.beta * ∑ l in Finset.range param.nz.toNat, V0 kstar (l : Int) * P j (l : Int) := by
  subst hkhi hg
  have hlo : monotoneLo G i j (feasibleHi E K (ydepK E param K Z i j)) = G (i - 1) j := by
    unfold monotoneLo
    have hi' : i > 0 := hi
    simp only [hi', if_true]
    rw [if_pos ⟨hg0, hg1⟩]
  have hcall : maxCall E param K Z P V0 G i j =
      selectedMax E param (G (i - 1) j)
        (feasibleHi E K (ydepK E param K Z i j) - G (i - 1) j + 1)
        (ydepK E param K Z i j) param.eta param.beta K
        (blockTimesRow param.nz V0 P (G (i - 1) j)
          (feasibleHi E K (ydepK E param K Z i j) - G (i - 1) j + 1) j) := by
    unfold maxCall
    simp only [hlo]
  refine ⟨hcall, ?_, ?_, ?_⟩
  · rw [← hcall]
    exact maxCall_eq_of_lowestBest E param K Z P V0 hlow G i j kstar hbest (by rw [hlo]; exact hk)
  · rw [← maxCall_zero_policy]
    apply maxCall_eq_of_lowestBest E param K Z P V0 hlow _ i j kstar hbest
    rw [monotoneLo_zero_policy]
    exact hbest.1
  · unfold cellReturn crra
    rw [rowDot_eq_sum]

/-- In the worked instance, index 1 is the lowest best index of cell `(2,0)`
over the full range `[0, 2]`. -/
theorem demo_lowestBest : LowestBest demoE demoParam demoK demoZ demoP demoV0 2 0 1 := by
  have hk : feasibleHi demoE demoK (ydepK demoE demoParam demoK demoZ 2 0) = 2 := by decide!
  unfold LowestBest
  rw [hk]
  refine ⟨by decide, by decide, ?_, ?_⟩
  · intro k h0 h1
    have h : k = 0 ∨ k = 1 ∨ k = 2 := by omega
    rcases h with rfl | rfl | rfl <;> decide!
  · intro k h0 h1
    have h : k = 0 := by omega
    subst h
    decide!

/-- C13, at the worked instance: cell `(2,0)` with `G(1,0) = 1`, `khi = 2` and
`kstar = 1`; the tightened call on `[1, 2]` and the call on `[0, 2]` both
return index 1. -/
theorem C13_tightening_same_answer_witness :
    maxCall demoE demoParam demoK demoZ demoP demoV0 demoG1 2 0 =
        selectedMax demoE demoParam 1 (2 - 1 + 1) (ydepK demoE demoParam demoK demoZ 2 0)
          demoParam.eta demoParam.beta demoK (blockTimesRow demoParam.nz demoV0 demoP 1 (2 - 1 + 1) 0)
      ∧ selectedMax demoE demoParam 1 (2 - 1 + 1) (ydepK demoE demoParam demoK demoZ 2 0)
          demoParam.eta demoParam.beta demoK (blockTimesRow demoParam.nz demoV0 demoP 1 (2 - 1 + 1) 0)
        = (cellReturn demoE demoParam demoK demoZ demoP demoV0 2 0 1, 1)
      ∧ selectedMax demoE demoParam 0 (2 - 0 + 1) (ydepK demoE demoParam demoK demoZ 2 0)
          demoParam.eta demoParam.beta demoK (blockTimesRow demoParam.nz demoV0 demoP 0 (2 - 0 + 1) 0)
        = (cellReturn demoE demoParam demoK demoZ demoP demoV0 2 0 1, 1)
      ∧ cellReturn demoE demoParam demoK demoZ demoP demoV0 2 0 1 =
          demoE.pow (ydepK demoE demoParam demoK demoZ 2 0 - demoK 1) (1 - demoParam.eta)
              / (1 - demoParam.eta)
            + demoParam.beta
              * ∑ l in Finset.range demoParam.nz.toNat, demoV0 1 (l : Int) * demoP 0 (l : Int) :=
  C13_tightening_same_answer demoE demoParam demoK demoZ demoP demoV0 demoG1 demo_lowestArgmax
    2 0 2 1 1 (by decide) (by decide!) rfl (by decide) (by decide) demo_lowestBest (by decide)

/-- C11. Scenario: for `nk=3`, `K=[1,2,3]`, `nz=1`, `Z=[1]`, `alpha=0.3`,
`delta=1`, `eta=2`, `beta=0.9`, `P=[[1]]` and any `V0`, with a power routine
that has `1^0.3 = 1` and `2^0.3`, `3^0.3` in `[1, 2)`, `binaryVal` meeting its
contract and a maximiser returning the lowest-index argmax of the return, a
maximisation sweep has `ydepK = [1, 2^0.3, 3^0.3]`; in each of the three rows
`khi = 0`, `klo = 0`, `nksub = 1`, `G(i,0) = 0` and
`V(i,0) = u(ydepK(i) - K[0]) + beta*V0(0,0)` with `u(c) = c^(1-eta)/(1-eta)`. -/
theorem C11_scenario (E : Extern R) (m : Char) (V0 V : MatrixXR R) (G : MatrixXi)
    (hsel : m = 'g' ∨ m = 'b')
    (hp1 : E.pow 1 (3 / 10) = 1)
    (hp2 : 1 ≤ E.pow 2 (3 / 10) ∧ E.pow 2 (3 / 10) < 2)
    (hp3 : 1 ≤ E.pow 3 (3 / 10) ∧ E.pow 3 (3 / 10) < 2)
    (hbv : ∀ i : Int, 0 ≤ i → i < 3 →
      BinaryValSpec 3 scenK (ydepK E (scenParam m) scenK scenZ i 0)
        (E.binaryVal (ydepK E (scenParam m) scenK scenZ i 0) scenK))
    (hlow : LowestArgmax E.pow (selectedMax E (scenParam m)))
    (i : Int) (hi0 : 0 ≤ i) (hi : i < 3) :
    (ydepK E (scenParam m) scenK scenZ 0 0 = 1
        ∧ ydepK E (scenParam m) scenK scenZ 1 0 = E.pow 2 (3 / 10)
        ∧ ydepK E (scenParam m) scenK scenZ 2 0 = E.pow 3 (3 / 10))
      ∧ feasibleHi E scenK (ydepK E (scenParam m) scenK scenZ i 0) = 0
      ∧ monotoneLo (vfStep E (scenParam m) false scenK scenZ scenP V0 V G).2 i 0
          (feasibleHi E scenK (ydepK E (scenParam m) scenK scenZ i 0)) = 0
      ∧ feasibleHi E scenK (ydepK E (scenParam m) scenK scenZ i 0)
          - monotoneLo (vfStep E (scenParam m) false scenK scenZ scenP V0 V G).2 i 0
              (feasibleHi E scenK (ydepK E (scenParam m) scenK scenZ i 0)) + 1 = 1
      ∧ (vfStep E (scenParam m) false scenK scenZ scenP V0 V G).2 i 0 = 0
      ∧ (vfStep E (scenParam m) false scenK scenZ scenP V0 V G).1 i 0 =
          E.pow (ydepK E (scenParam m) scenK scenZ i 0 - scenK 0) (1 - 2) / (1 - 2)
            + 9 / 10 * V0 0 0 := by
  have hy : ∀ a : Int, ydepK E (scenParam m) scenK scenZ a 0 = E.pow (scenK a) (3 / 10) := by
    intro a
    simp [ydepK, colwiseAdd, outer, scenZ, scenParam]
  have hy0 : ydepK E (scenParam m) scenK scenZ 0 0 = 1 := by
    rw [hy]
    simpa [scenK] using hp1
  have hy1 : ydepK E (scenParam m) scenK scenZ 1 0 = E.pow 2 (3 / 10) := by
    rw [hy]
    simp [scenK]
  have hy2 : ydepK E (scenParam m) scenK scenZ 2 0 = E.pow 3 (3 / 10) := by
    rw [hy]
    simp [scenK]
  have hrange : 1 ≤ ydepK E (scenParam m) scenK scenZ i 0
      ∧ ydepK E (scenParam m) scenK scenZ i 0 < 2 := by
    have h : i = 0 ∨ i = 1 ∨ i = 2 := by omega
    rcases h with rfl | rfl | rfl
    · rw [hy0]
      norm_num
    · rw [hy1]
      exact hp2
    · rw [hy2]
      exact hp3
  have hK0 : (scenK : VectorXR R) 0 = 1 := by simp [scenK]
  have hK1 : (scenK : VectorXR R) 1 = 2 := by simp [scenK]
  have hnk : (scenParam m : parameters R).nk = 3 := rfl
  have hnz : (scenParam m : parameters R).nz = 1 := rfl
  have hsel' : (scenParam m : parameters R).maxtype = 'g'
      ∨ (scenParam m : parameters R).maxtype = 'b' := hsel
  obtain ⟨k0, k1, k2, _⟩ := feasibleHi_largest E scenK 3
    (ydepK E (scenParam m) scenK scenZ i 0) scenK_strictIncr (by rw [hK0]; exact hrange.1)
    (hbv i hi0 hi)
  have hkhi : feasibleHi E scenK (ydepK E (scenParam m) scenK scenZ i 0) = 0 := by
    by_contra hne
    have hpos : 1 ≤ feasibleHi E scenK (ydepK E (scenParam m) scenK scenZ i 0) := by omega
    have hle := StrictIncr.le_of_le (scenK_strictIncr (R := R)) (by decide : (0 : Int) ≤ 1) hpos k1
    rw [hK1] at hle
    exact absurd (lt_of_le_of_lt (le_trans hle k2) hrange.2) (lt_irrefl _)
  have hcell := vfStep_max_apply E (scenParam m) scenK scenZ scenP V0 hsel' V G i 0 hi0
    (by rw [hnk]; exact hi) (le_refl 0) (by rw [hnz]; decide)
  have hV := congrArg Prod.fst hcell
  have hG := congrArg Prod.snd hcell
  simp only [] at hV hG
  obtain ⟨l1, l2, l3, _, _⟩ := maxCall_lowest E (scenParam m) scenK scenZ scenP V0 hlow
    (vfStep E (scenParam m) false scenK scenZ scenP V0 V G).2 i 0 (by rw [hkhi])
  have hlo := monotoneLo_bounds (vfStep E (scenParam m) false scenK scenZ scenP V0 V G).2 i 0
    (feasibleHi E scenK (ydepK E (scenParam m) scenK scenZ i 0)) (by rw [hkhi])
  rw [← hG] at l1 l2 l3
  rw [← hV] at l3
  have hlo0 : monotoneLo (vfStep E (scenParam m) false scenK scenZ scenP V0 V G).2 i 0
      (feasibleHi E scenK (ydepK E (scenParam m) scenK scenZ i 0)) = 0 := by
    rw [hkhi] at hlo ⊢
    omega
  have hG0 : (vfStep E (scenParam m) false scenK scenZ scenP V0 V G).2 i 0 = 0 := by
    rw [hkhi] at l2
    rw [hlo0] at l1
    omega
  refine ⟨⟨hy0, hy1, hy2⟩, hkhi, hlo0, ?_, hG0, ?_⟩
  · rw [hlo0, hkhi]
    rfl
  · rw [l3, hG0]
    have hdot : rowDot (scenParam m : parameters R).nz (V0 0) (scenP 0) = V0 0 0 := by
      rw [rowDot_eq_sum]
      simp [scenParam, scenP]
    unfold cellReturn crra
    rw [hdot]
    rfl

/-- C11, run on the rationals with `2^0.3` and `3^0.3` replaced by `1.231`
and `1.39` and with `V0 = 10`: row 1 has `G(1,0) = 0` and
`V(1,0) = u(0.231) + 0.9 * 10 = -1000/231 + 9`. -/
theorem C11_scenario_witness :
    (vfStep scenE (scenParam 'g') false scenK scenZ scenP scenV0 demoV demoG7).2 1 0 = 0
      ∧ (vfStep scenE (scenParam 'g') false scenK scenZ scenP scenV0 demoV demoG7).1 1 0 =
          scenE.pow (ydepK scenE (scenParam 'g') scenK scenZ 1 0 - scenK 0) (1 - 2) / (1 - 2)
            + 9 / 10 * scenV0 0 0
      ∧ (vfStep scenE (scenParam 'g') false scenK scenZ scenP scenV0 demoV demoG7).1 1 0
          = -1000 / 231 + 9 :=
  ⟨(C11_scenario scenE 'g' scenV0 demoV demoG7 (Or.inl rfl) (by decide!)
      ⟨by decide!, by decide!⟩ ⟨by decide!, by decide!⟩ scen_binaryVal (scen_lowestArgmax 'g')
      1 (by decide) (by decide)).2.2.2.2.1,
    (C11_scenario scenE 'g' scenV0 demoV demoG7 (Or.inl rfl) (by decide!)
      ⟨by decide!, by decide!⟩ ⟨by decide!, by decide!⟩ scen_binaryVal (scen_lowestArgmax 'g')
      1 (by decide) (by decide)).2.2.2.2.2,
    by decide!⟩

/-- C14. Column independence and loop interchange: for every input, running
the loop body with `j` as the outer and `i` as the inner loop, or in any
order that visits every cell of the grid once with rows increasing inside
each column, gives exactly the `V` and `G` of `vfStep`; column `j` of the
result is the same for inputs that agree on `Z[j]`, row `j` of `P` and column
`j` of the incoming `V` and `G`; and in the modes that write `V`
(`howard = true`, or selector `'g'` or `'b'`) the cells of column `j` are the
same for inputs that agree on `Z[j]`, row `j` of `P` and, in `howard` mode,
column `j` of `G`. -/
theorem C14_column_independence (E : Extern R) (param : parameters R) (howard : Bool)
    (K Z : VectorXR R) (P V0 V : MatrixXR R) (G : MatrixXi) :
    vfStepColMajor E param howard K Z P V0 V G = vfStep E param howard K Z P V0 V G
      ∧ (∀ l : List (Nat × Nat), AdmissibleOrder param l →
          sweepOver E param howard K Z P V0 l V G = vfStep E param howard K Z P V0 V G)
      ∧ (∀ (j : Int) (Z' : VectorXR R) (P' V' : MatrixXR R) (G' : MatrixXi),
          Z' j = Z j → (∀ l : Int, P' j l = P j l) →
          (∀ a : Int, V' a j = V a j) → (∀ a : Int, G' a j = G a j) →
          ∀ a : Int,
            (vfStep E param howard K Z' P' V0 V' G').1 a j
                = (vfStep E param howard K Z P V0 V G).1 a j
              ∧ (vfStep E param howard K Z' P' V0 V' G').2 a j
                = (vfStep E param howard K Z P V0 V G).2 a j)
      ∧ (howard = true ∨ param.maxtype = 'g' ∨ param.maxtype = 'b' →
          ∀ (j : Int) (Z' : VectorXR R) (P' V' : MatrixXR R) (G' : MatrixXi),
          Z' j = Z j → (∀ l : Int, P' j l = P j l) →
          (howard = true → ∀ a : Int, G' a j = G a j) →
          ∀ i : Int, 0 ≤ i → i < param.nk → 0 ≤ j → j < param.nz →
            (vfStep E param howard K Z' P' V0 V' G').1 i j
                = (vfStep E param howard K Z P V0 V G).1 i j
              ∧ (vfStep E param howard K Z' P' V0 V' G').2 i j
                = (vfStep E param howard K Z P V0 V G).2 i j) := by
  refine ⟨?_, ?_, ?_, ?_⟩
  · rw [vfStepColMajor_eq_sweepOver]
    exact sweepOver_eq_vfStep E param howard K Z P V0 _ (colMajorCells_admissible param) V G
  · intro l hl
    exact sweepOver_eq_vfStep E param howard K Z P V0 l hl V G
  · intro j Z' P' V' G' hZ hP hV hG a
    have h := vfStep_column_congr E param howard K Z P V0 Z' P' V V' G G' j hZ hP hV hG a
    exact ⟨congrArg Prod.fst h, congrArg Prod.snd h⟩
  · intro hmode j Z' P' V' G' hZ hP hG i hi0 hi hj0 hj
    have h := vfStep_column_congr_written E param howard K Z P V0 hmode Z' P' V V' G G' j hZ hP hG
      i hi0 hi hj0 hj
    exact ⟨congrArg Prod.fst h, congrArg Prod.snd h⟩

/-- C14, at the worked instance with two productivity states: the
interchanged loops and the order `(0,1), (0,0), (1,1), (2,1), (1,0), (2,0)`
give the result of `vfStep`, whose policy is `[0, 1, 1]` in column 0 and
`[0, 1, 2]` in column 1. -/
theorem C14_column_independence_witness :
    vfStepColMajor demoE demoParam2 false demoK demoZ2 demoP2 demoV0 demoV demoG
        = vfStep demoE demoParam2 false demoK demoZ2 demoP2 demoV0 demoV demoG
      ∧ sweepOver demoE demoParam2 false demoK demoZ2 demoP2 demoV0
          [(0, 1), (0, 0), (1, 1), (2, 1), (1, 0), (2, 0)] demoV demoG
        = vfStep demoE demoParam2 false demoK demoZ2 demoP2 demoV0 demoV demoG
      ∧ (vfStep demoE demoParam2 false demoK demoZ2 demoP2 demoV0 demoV demoG).2 2 0 = 1
      ∧ (vfStep demoE demoParam2 false demoK demoZ2 demoP2 demoV0 demoV demoG).2 1 1 = 1
      ∧ (vfStep demoE demoParam2 false demoK demoZ2 demoP2 demoV0 demoV demoG).2 2 1 = 2 :=
  ⟨(C14_column_independence demoE demoParam2 false demoK demoZ2 demoP2 demoV0 demoV demoG).1,
    (C14_column_independence demoE demoParam2 false demoK demoZ2 demoP2 demoV0 demoV demoG).2.1
      _ ⟨by unfold ColumnOrdered; decide, fun i j => by
        have h1 : demoParam2.nk = 3 := rfl
        have h2 : demoParam2.nz = 2 := rfl
        rw [h1, h2]
        simp only [List.mem_cons, Prod.mk.injEq, List.mem_singleton, List.not_mem_nil, or_false]
        omega⟩,
    by decide!, by decide!, by decide!⟩

end Claims

end VFI
